import Mathlib

/-!
Verification of the OPTICS clustering implementation (`src/optics.rs`) of the
petal-clustering repository.

Modelling conventions, chosen to mirror the Rust source:

* The floating-point scalar type `A : FloatCore` is modelled by the inductive
  type `F`: a NaN, a signed infinity, or a finite value carried as a rational
  number together with a subnormal flag.  `F.is_normal` mirrors Rust's
  `f64::is_normal` classification (finite, non-zero, non-subnormal, non-NaN).
  The metric is modelled as an abstract function `dist : ℕ → ℕ → ℚ` on point
  indices returning plain finite values; consequently the pipeline only ever
  stores `F.nan` (the sentinel) or ordinary finite values in the reachability
  array, matching a run of the Rust code on ordinary inputs.
* The input array appears only through its row count `n` and the metric, since
  the algorithm reads points exclusively via `metric.distance`.  `is_empty` is
  modelled as `n = 0`.
* Rust `Vec` index accesses use total getters (`vGet`, `rGet`, `nhGet`).  For
  out-of-range indices (where the Rust code would panic, a situation no run of
  the pipeline produces) `vGet` answers `true` ("visited", so the traversal
  skips such an index) and `rGet` answers `F.nan`; `List.set` out of range is a
  no-op.  In-range behaviour is exactly that of the source.
* The `HashMap<usize, Vec<usize>>` of clusters is an association list `HM`;
  the code only ever uses `len`, `is_empty`, `get_mut` and `entry/or_insert`,
  all modelled key-exactly.  The `unreachable!` panic arm of
  `extract_clusters_and_outliers` is modelled as `Option.none`.
* The seed buffer (`Vec<usize>` used as a stack popping from the tail) is kept
  reversed: the Lean list head is the Rust vector's tail, so `pop` is `head`.
  Rust's `sort_unstable_by` with the reversed comparator (descending vector
  order) therefore becomes an ascending-by-reachability sort of the Lean list.
  The comparator key is the stored finite value (`F.val`); the `unwrap` panic
  on NaN comparisons cannot fire because queued seeds always carry assigned
  finite values.
-/

namespace Petal

/-- Model of the IEEE floating-point scalar used by the algorithm: NaN, a
signed infinity (`true` = positive), or a finite value with its rational
magnitude and a subnormal flag. -/
inductive F where
  | nan : F
  | inf : Bool → F
  | num : ℚ → Bool → F
deriving DecidableEq

namespace F

/-- Rust `FloatCore::is_normal`: neither NaN, infinite, zero nor subnormal. -/
def is_normal : F → Bool
  | nan => false
  | inf _ => false
  | num q s => !s && decide (q ≠ 0)

/-- IEEE comparison `<`; any comparison involving NaN is false. -/
def lt : F → F → Bool
  | nan, _ => false
  | _, nan => false
  | inf true, _ => false
  | inf false, inf false => false
  | inf false, _ => true
  | num _ _, inf b => b
  | num a _, num b _ => decide (a < b)

/-- IEEE comparison `≤`; any comparison involving NaN is false. -/
def le : F → F → Bool
  | nan, _ => false
  | _, nan => false
  | inf true, inf true => true
  | inf true, _ => false
  | inf false, _ => true
  | num _ _, inf b => b
  | num a _, num b _ => decide (a ≤ b)

/-- The numeric value of a finite float (0 for NaN and infinities). -/
def val : F → ℚ
  | num q _ => q
  | _ => 0

/-- Embedding of an ordinary (finite, not subnormal) value. -/
def ofQ (q : ℚ) : F := num q false

/-- The float is the NaN payload. -/
def isNan : F → Bool
  | nan => true
  | _ => false

/-- The float is finite (neither NaN nor an infinity). -/
def isFinite : F → Bool
  | num _ _ => true
  | _ => false

/-- The float is an exact zero. -/
def isZero : F → Bool
  | num q _ => decide (q = 0)
  | _ => false

/-- The float is subnormal. -/
def isSubnormal : F → Bool
  | num _ s => s
  | _ => false

end F

/-- Per-point neighborhood data produced by `build_neighborhoods`. -/
structure Neighborhood where
  neighbors : List ℕ
  core_distance : ℚ
deriving DecidableEq

/-- Read the `visited` array; out-of-range reads answer `true` (the Rust code
would panic there, and the traversal never reads out of range). -/
def vGet (v : List Bool) (i : ℕ) : Bool := v.getD i true

/-- Read the `reachability` array; out-of-range reads answer the NaN sentinel
(the Rust code would panic there). -/
def rGet (r : List F) (i : ℕ) : F := r.getD i F.nan

/-- Read the `neighborhoods` array; out-of-range reads answer an empty
neighborhood (the Rust code would panic there). -/
def nhGet (ns : List Neighborhood) (i : ℕ) : Neighborhood := ns.getD i ⟨[], 0⟩

/-- Rust `reachability_distance`: the metric distance from `o` to `p` if it
exceeds the core distance recorded in `neighbors`, else that core distance. -/
def reachability_distance (dist : ℕ → ℕ → ℚ) (o p : ℕ) (neighbors : Neighborhood) : ℚ :=
  if neighbors.core_distance < dist o p then dist o p else neighbors.core_distance

/-- The body of the neighbor loop of Rust `update`, for one neighbor `o` of
the core point `id`: skip a visited neighbor; assign a first reachability and
queue the neighbor when the stored value is not normal; overwrite the stored
value when it is less than the candidate. -/
def updateStep (dist : ℕ → ℕ → ℚ) (id : ℕ) (neighborhood : Neighborhood)
    (visited : List Bool) (acc : List ℕ × List F) (o : ℕ) : List ℕ × List F :=
  if vGet visited o then acc
  else
    let reachdist := reachability_distance dist o id neighborhood
    if !(rGet acc.2 o).is_normal then
      (o :: acc.1, acc.2.set o (F.ofQ reachdist))
    else if (rGet acc.2 o).lt (F.ofQ reachdist) then
      (acc.1, acc.2.set o (F.ofQ reachdist))
    else acc

/-- Rust `update`: scan the unvisited neighbors of the current core point
`id`, assigning a first reachability (and queueing the neighbor) when the
stored value is not normal, overwriting it when the stored value is less than
the candidate, and finally sorting the seed buffer by reachability value
(ascending from the pop end of the buffer, which is the list head here). -/
def update (dist : ℕ → ℕ → ℚ) (id : ℕ) (neighborhood : Neighborhood)
    (visited : List Bool) (seeds : List ℕ) (reachability : List F) :
    List ℕ × List F :=
  let p := neighborhood.neighbors.foldl (updateStep dist id neighborhood visited)
    (seeds, reachability)
  (List.insertionSort (fun a b => (rGet p.2 a).val ≤ (rGet p.2 b).val) p.1, p.2)

/-- The mutable state of the reachability traversal. -/
structure TState where
  ordered : List ℕ
  reachability : List F
  visited : List Bool
deriving DecidableEq

/-- Number of entries of the `visited` array still false; the termination
measure of the seed-draining loop. -/
def unvisitedCount (v : List Bool) : ℕ := v.count false

theorem vGet_false_lt_length {v : List Bool} {s : ℕ} (h : vGet v s = false) :
    s < v.length := by
  by_contra hlt
  push_neg at hlt
  rw [vGet, List.getD_eq_default _ _ hlt] at h
  simp at h

theorem vGet_eq_getElem {v : List Bool} {s : ℕ} (h : s < v.length) :
    vGet v s = v[s] := by
  rw [vGet, List.getD_eq_getElem?_getD, List.getElem?_eq_getElem h]
  rfl

theorem count_false_set_true :
    ∀ (v : List Bool) (s : ℕ) (hs : s < v.length), v[s] = false →
      (v.set s true).count false < v.count false := by
  intro v
  induction v with
  | nil => intro s h; simp at h
  | cons b t ih =>
    intro s hs hb
    match s with
    | 0 =>
      simp only [List.getElem_cons_zero] at hb
      subst hb
      simp [List.count_cons]
    | s + 1 =>
      simp only [List.getElem_cons_succ] at hb
      have := ih s (by simpa using hs) hb
      simp only [List.set_cons_succ, List.count_cons]
      omega

theorem unvisitedCount_set_lt {v : List Bool} {s : ℕ} (h : vGet v s = false) :
    unvisitedCount (v.set s true) < unvisitedCount v := by
  have hlt : s < v.length := vGet_false_lt_length h
  have hg : v[s] = false := by rw [← vGet_eq_getElem hlt]; exact h
  exact count_false_set_true v s hlt hg

section Traversal

variable (nbhds : List Neighborhood) (min_samples : ℕ) (dist : ℕ → ℕ → ℚ)

/-- The inner seed-draining loop of Rust `process`: pop the seed with the
smallest reachability (the list head here, the vector tail in Rust), skip it
if visited, otherwise mark it visited, append it to the order, and if it is a
core point run `update` on the remaining buffer and continue on the result. -/
def drainSeeds : List ℕ → TState → TState
  | [], st => st
  | s :: rest, st =>
    if hv : vGet st.visited s then drainSeeds rest st
    else
      let visited' := st.visited.set s true
      let ordered' := st.ordered ++ [s]
      if (nhGet nbhds s).neighbors.length < min_samples then
        drainSeeds rest ⟨ordered', st.reachability, visited'⟩
      else
        let ur := update dist s (nhGet nbhds s) visited' rest st.reachability
        drainSeeds ur.1 ⟨ordered', ur.2, visited'⟩
termination_by seeds st => (unvisitedCount st.visited, seeds.length)
decreasing_by
  · apply Prod.Lex.right
    simp
  · apply Prod.Lex.left
    exact unvisitedCount_set_lt (by simpa using hv)
  · apply Prod.Lex.left
    exact unvisitedCount_set_lt (by simpa using hv)

/-- The outer candidate-stack loop of Rust `process`.  The stack is created
with a single element and nothing is ever pushed onto it, so it only shrinks. -/
def processLoop : List ℕ → TState → TState
  | [], st => st
  | cur :: rest, st =>
    if vGet st.visited cur then processLoop rest st
    else
      let visited' := st.visited.set cur true
      let ordered' := st.ordered ++ [cur]
      if (nhGet nbhds cur).neighbors.length < min_samples then
        processLoop rest ⟨ordered', st.reachability, visited'⟩
      else
        let ur := update dist cur (nhGet nbhds cur) visited' [] st.reachability
        processLoop rest (drainSeeds nbhds min_samples dist ur.1 ⟨ordered', ur.2, visited'⟩)

/-- Rust `process`: run the candidate-stack loop on the stack `vec![idx]`. -/
def process (idx : ℕ) (st : TState) : TState :=
  processLoop nbhds min_samples dist [idx] st

end Traversal

/-- The sorted (ascending) list of distances from point `p` to every point,
including `p` itself.  Models the `BallTree::query(&p, 2)` call, which returns
the two nearest points of the data set sorted by distance. -/
def sortedDists (n : ℕ) (dist : ℕ → ℕ → ℚ) (p : ℕ) : List ℚ :=
  List.insertionSort (· ≤ ·) ((List.range n).map (dist p))

/-- Rust `build_neighborhoods`.  The external `BallTree` is modelled by its
query semantics: `query_radius(&p, eps)` returns the indices within distance
`eps` of `p`, and `query(&p, 2)` returns the two smallest distances, the
second of which becomes the core distance when `p` has more than one
neighbor; a point with at most one neighbor gets core distance zero. -/
def build_neighborhoods (n : ℕ) (dist : ℕ → ℕ → ℚ) (eps : ℚ) : List Neighborhood :=
  (List.range n).map fun p =>
    let neighbors := (List.range n).filter fun j => decide (dist p j ≤ eps)
    let core_distance := if 1 < neighbors.length then (sortedDists n dist p).getD 1 0 else 0
    ⟨neighbors, core_distance⟩

/-- Configuration of the `Optics` struct: build radius and minimum sample
count.  The metric field is carried separately as the `dist` function. -/
structure Optics where
  eps : ℚ
  min_samples : ℕ
deriving DecidableEq

/-- The fields of the fitted `Optics` struct written by `fit` and read by
`extract_clusters_and_outliers`. -/
structure Model where
  ordered : List ℕ
  reachability : List F
  neighborhoods : List Neighborhood
deriving DecidableEq

/-- One iteration of the outer loop of Rust `fit`: skip the index when it is
already visited or not a valid expansion seed, otherwise expand from it. -/
def outerStep (nbhds : List Neighborhood) (min_samples : ℕ) (dist : ℕ → ℕ → ℚ)
    (st : TState) (idx : ℕ) : TState :=
  if vGet st.visited idx || decide ((nhGet nbhds idx).neighbors.length < min_samples) then st
  else process nbhds min_samples dist idx st

/-- The traversal portion of Rust `fit`: build the neighborhoods, initialise
`visited` to all-false and `reachability` to all-NaN, then run the outer loop
over all indices in ascending order. -/
def fitState (cfg : Optics) (n : ℕ) (dist : ℕ → ℕ → ℚ) : TState :=
  let nbhds := build_neighborhoods n dist cfg.eps
  (List.range n).foldl (outerStep nbhds cfg.min_samples dist)
    ⟨[], List.replicate n F.nan, List.replicate n false⟩

/-- The fitted model: order and reachability from the traversal, plus the
neighborhoods. -/
def fitModel (cfg : Optics) (n : ℕ) (dist : ℕ → ℕ → ℚ) : Model :=
  ⟨(fitState cfg n dist).ordered, (fitState cfg n dist).reachability,
    build_neighborhoods n dist cfg.eps⟩

/-- The cluster map: an association list from cluster id to member list,
modelling the `HashMap<usize, Vec<usize>>` through the operations the code
uses (`len`, `is_empty`, `get_mut`, `entry
/or_insert`). -/
abbrev HM := List (ℕ × List ℕ)

/-- Model of `clusters.get_mut(&k)` followed by `v.push(id)`: append `id` to
the member list of the entry with key `k`, or `none` (the panic arm) when no
entry has key `k`. -/
def hmGetMutPush : HM → ℕ → ℕ → Option HM
  | [], _, _ => none
  | e :: rest, k, id =>
    if e.1 = k then some ((e.1, e.2 ++ [id]) :: rest)
    else (hmGetMutPush rest k id).map (e :: ·)

/-- Whether the map has an entry with key `k`. -/
def hmHasKey (m : HM) (k : ℕ) : Bool := m.any fun e => e.1 == k

/-- Model of `clusters.entry(k).or_insert_with(|| vec![id])`: insert a fresh
singleton cluster under key `k` unless that key is already present. -/
def hmEntryOrInsert (m : HM) (k : ℕ) (id : ℕ) : HM :=
  if hmHasKey m k then m else m ++ [(k, [id])]

/-- All cluster members, in cluster order. -/
def joinC (m : HM) : List ℕ := (m.map Prod.snd).join

/-- One iteration of the extraction loop of `extract_clusters_and_outliers`
for the order entry `id`; `none` models the `unreachable!` panic arm. -/
def extract_step (reach : List F) (nbhds : List Neighborhood) (min_samples : ℕ)
    (eps : ℚ) (acc : HM × List ℕ) (id : ℕ) : Option (HM × List ℕ) :=
  if (rGet reach id).is_normal && (rGet reach id).le (F.ofQ eps) then
    if acc.1.isEmpty then some (acc.1, acc.2 ++ [id])
    else
      match hmGetMutPush acc.1 (acc.1.length - 1) id with
      | some m => some (m, acc.2)
      | none => none
  else
    let n := nhGet nbhds id
    if min_samples ≤ n.neighbors.length ∧ n.core_distance ≤ eps then
      some (hmEntryOrInsert acc.1 acc.1.length id, acc.2)
    else some (acc.1, acc.2 ++ [id])

/-- The extraction loop over a list of order entries. -/
def extract_go (reach : List F) (nbhds : List Neighborhood) (min_samples : ℕ)
    (eps : ℚ) : List ℕ → HM × List ℕ → Option (HM × List ℕ)
  | [], acc => some acc
  | id :: rest, acc =>
    match extract_step reach nbhds min_samples eps acc id with
    | none => none
    | some acc' => extract_go reach nbhds min_samples eps rest acc'

/-- Rust `extract_clusters_and_outliers`: a single forward pass over the
stored order, starting from an empty cluster map and outlier list. -/
def extract_clusters_and_outliers (cfg : Optics) (m : Model) (eps : ℚ) :
    Option (HM × List ℕ) :=
  extract_go m.reachability m.neighborhoods cfg.min_samples eps m.ordered ([], [])

/-- Rust `fit`: an empty input returns empty results immediately; otherwise
run the pipeline and extract at the build radius. -/
def fit (cfg : Optics) (n : ℕ) (dist : ℕ → ℕ → ℚ) : Option (HM × List ℕ) :=
  if n = 0 then some ([], [])
  else extract_clusters_and_outliers cfg (fitModel cfg n dist) cfg.eps

/-! ## Small array-access lemmas -/

theorem rGet_set_ne {r : List F} {o t : ℕ} (h : t ≠ o) (v : F) :
    rGet (r.set o v) t = rGet r t := by
  rw [rGet, rGet, List.getD_eq_getElem?_getD, List.getD_eq_getElem?_getD,
    List.getElem?_set_ne (fun he => h he.symm)]

theorem rGet_set_self {r : List F} {o : ℕ} (h : o < r.length) (v : F) :
    rGet (r.set o v) o = v := by
  rw [rGet, List.getD_eq_getElem?_getD, List.getElem?_set_self h]
  rfl

theorem vGet_set_ne {v : List Bool} {o t : ℕ} (h : t ≠ o) (b : Bool) :
    vGet (v.set o b) t = vGet v t := by
  rw [vGet, vGet, List.getD_eq_getElem?_getD, List.getD_eq_getElem?_getD,
    List.getElem?_set_ne (fun he => h he.symm)]

theorem vGet_set_self {v : List Bool} {o : ℕ} (h : o < v.length) (b : Bool) :
    vGet (v.set o b) o = b := by
  rw [vGet, List.getD_eq_getElem?_getD, List.getElem?_set_self h]
  rfl

theorem vGet_set_true_of_false {v : List Bool} {s t : ℕ} (hs : vGet v s = false) :
    vGet (v.set s true) t = if t = s then true else vGet v t := by
  by_cases ht : t = s
  · subst ht
    simp [vGet_set_self (vGet_false_lt_length hs)]
  · simp [ht, vGet_set_ne ht]

/-- The reachability-distance candidate is at least the core distance of the
neighborhood it is computed from. -/
theorem core_le_reachability_distance (dist : ℕ → ℕ → ℚ) (o p : ℕ) (nb : Neighborhood) :
    nb.core_distance ≤ reachability_distance dist o p nb := by
  rw [reachability_distance]
  split
  · next h => exact le_of_lt h
  · exact le_refl _

/-! ## Characterization of `update` -/

/-- The relational facts about one `update` call that every traversal
invariant needs: the reachability array keeps its length, entries of visited
points are untouched, every changed entry belongs to an unvisited neighbor of
`id` and now holds the candidate value for that neighbor, and every queued
seed is an old seed or an unvisited neighbor of `id`. -/
theorem update_spec (dist : ℕ → ℕ → ℚ) (id : ℕ) (nb : Neighborhood)
    (visited : List Bool) (seeds : List ℕ) (reach : List F) :
    (update dist id nb visited seeds reach).2.length = reach.length
    ∧ (∀ t, vGet visited t = true →
        rGet (update dist id nb visited seeds reach).2 t = rGet reach t)
    ∧ (∀ t, rGet (update dist id nb visited seeds reach).2 t = rGet reach t ∨
        (vGet visited t = false ∧ t ∈ nb.neighbors ∧
         rGet (update dist id nb visited seeds reach).2 t
           = F.ofQ (reachability_distance dist t id nb)))
    ∧ (∀ x ∈ (update dist id nb visited seeds reach).1,
        x ∈ seeds ∨ (x ∈ nb.neighbors ∧ vGet visited x = false)) := by
  have main : ∀ (l : List ℕ), (∀ o ∈ l, o ∈ nb.neighbors) →
      ∀ (acc : List ℕ × List F),
      (acc.2.length = reach.length
        ∧ (∀ t, vGet visited t = true → rGet acc.2 t = rGet reach t)
        ∧ (∀ t, rGet acc.2 t = rGet reach t ∨
            (vGet visited t = false ∧ t ∈ nb.neighbors ∧
             rGet acc.2 t = F.ofQ (reachability_distance dist t id nb)))
        ∧ (∀ x ∈ acc.1, x ∈ seeds ∨ (x ∈ nb.neighbors ∧ vGet visited x = false))) →
      ((l.foldl (updateStep dist id nb visited) acc).2.length = reach.length
        ∧ (∀ t, vGet visited t = true →
            rGet (l.foldl (updateStep dist id nb visited) acc).2 t = rGet reach t)
        ∧ (∀ t, rGet (l.foldl (updateStep dist id nb visited) acc).2 t = rGet reach t ∨
            (vGet visited t = false ∧ t ∈ nb.neighbors ∧
             rGet (l.foldl (updateStep dist id nb visited) acc).2 t
               = F.ofQ (reachability_distance dist t id nb)))
        ∧ (∀ x ∈ (l.foldl (updateStep dist id nb visited) acc).1,
            x ∈ seeds ∨ (x ∈ nb.neighbors ∧ vGet visited x = false))) := by
    intro l
    induction l with
    | nil => intro _ acc h; exact h
    | cons o l' ih =>
      intro hsub acc hacc
      obtain ⟨h1, h2, h3, h4⟩ := hacc
      have ho : o ∈ nb.neighbors := hsub o (List.mem_cons_self o l')
      have hsub' : ∀ x ∈ l', x ∈ nb.neighbors := fun x hx =>
        hsub x (List.mem_cons_of_mem o hx)
      simp only [List.foldl_cons]
      apply ih hsub'
      rw [updateStep]
      by_cases hv : vGet visited o = true
      · simp only [hv, if_pos]
        exact ⟨h1, h2, h3, h4⟩
      · have hv' : vGet visited o = false := by
          cases hvv : vGet visited o
          · rfl
          · exact absurd hvv hv
        simp only [hv', Bool.false_eq_true, if_false]
        have hset : ∀ (sds : List ℕ),
            ((sds, acc.2.set o (F.ofQ (reachability_distance dist o id nb))) :
              List ℕ × List F).2.length = reach.length
            ∧ (∀ t, vGet visited t = true →
                rGet (acc.2.set o (F.ofQ (reachability_distance dist o id nb))) t
                  = rGet reach t)
            ∧ (∀ t, rGet (acc.2.set o (F.ofQ (reachability_distance dist o id nb))) t
                  = rGet reach t ∨
                (vGet visited t = false ∧ t ∈ nb.neighbors ∧
                 rGet (acc.2.set o (F.ofQ (reachability_distance dist o id nb))) t
                   = F.ofQ (reachability_distance dist t id nb))) := by
          intro sds
          refine ⟨by simpa using h1, ?_, ?_⟩
          · intro t ht
            have hto : t ≠ o := by
              intro he
              rw [he, hv'] at ht
              simp at ht
            rw [rGet_set_ne hto]
            exact h2 t ht
          · intro t
            by_cases hto : t = o
            · subst hto
              by_cases hro : t < acc.2.length
              · right
                exact ⟨hv', ho, rGet_set_self hro _⟩
              · push_neg at hro
                rw [List.set_eq_of_length_le hro]
                exact h3 t
            · rw [rGet_set_ne hto]
              exact h3 t
        split
        · -- first assignment: push the seed and set the value
          obtain ⟨g1, g2, g3⟩ := hset (o :: acc.1)
          refine ⟨g1, g2, g3, ?_⟩
          intro x hx
          rcases List.mem_cons.mp hx with hx | hx
          · right; exact ⟨hx ▸ ho, hx ▸ hv'⟩
          · exact h4 x hx
        · split
          · -- overwrite in place, seeds unchanged
            obtain ⟨g1, g2, g3⟩ := hset acc.1
            exact ⟨g1, g2, g3, h4⟩
          · exact ⟨h1, h2, h3, h4⟩
  have base := main nb.neighbors (fun _ h => h) (seeds, reach)
    ⟨rfl, fun _ _ => rfl, fun _ => Or.inl rfl, fun x hx => Or.inl hx⟩
  rw [update]
  refine ⟨base.1, base.2.1, base.2.2.1, ?_⟩
  intro x hx
  exact base.2.2.2 x ((List.perm_insertionSort _ _).mem_iff.mp hx)

/-! ## The cluster-map invariant and the extraction pass -/

/-- The key invariant of the cluster map: its keys are exactly the sequence
numbers `0, 1, …, len - 1` in insertion order. -/
def KeysInv (m : HM) : Prop := m.map Prod.fst = List.range m.length

/-- The point `id` counts as having a defined reachability not exceeding
`eps` in the extraction pass. -/
def DefinedAt (reach : List F) (id : ℕ) (eps : ℚ) : Prop :=
  (rGet reach id).is_normal = true ∧ (rGet reach id).le (F.ofQ eps) = true

/-- The point `id` is a valid core point at threshold `eps`: enough neighbors
and a small enough core distance. -/
def CoreAt (nbhds : List Neighborhood) (min_samples : ℕ) (id : ℕ) (eps : ℚ) : Prop :=
  min_samples ≤ (nhGet nbhds id).neighbors.length
    ∧ (nhGet nbhds id).core_distance ≤ eps

instance (reach : List F) (id : ℕ) (eps : ℚ) : Decidable (DefinedAt reach id eps) := by
  rw [DefinedAt]; infer_instance

instance (nbhds : List Neighborhood) (ms id : ℕ) (eps : ℚ) :
    Decidable (CoreAt nbhds ms id eps) := by
  rw [CoreAt]; infer_instance

theorem hmHasKey_iff {m : HM} {k : ℕ} : hmHasKey m k = true ↔ k ∈ m.map Prod.fst := by
  rw [hmHasKey, List.any_eq_true]
  constructor
  · rintro ⟨e, he, hk⟩
    exact List.mem_map.mpr ⟨e, he, by simpa using hk⟩
  · intro hm
    obtain ⟨e, he, hk⟩ := List.mem_map.mp hm
    exact ⟨e, he, by simp [hk]⟩

theorem hmGetMutPush_some_spec :
    ∀ (m : HM) (k id : ℕ) (m' : HM), hmGetMutPush m k id = some m' →
      ∃ a v b, m = a ++ (k, v) :: b ∧ m' = a ++ (k, v ++ [id]) :: b := by
  intro m
  induction m with
  | nil => intro k id m' h; rw [hmGetMutPush] at h; cases h
  | cons e rest ih =>
    intro k id m' h
    rw [hmGetMutPush] at h
    by_cases he : e.1 = k
    · rw [if_pos he] at h
      refine ⟨[], e.2, rest, ?_, ?_⟩
      · simp [← he]
      · have : (e.1, e.2 ++ [id]) :: rest = m' := Option.some.inj h
        simp [← this, he]
    · rw [if_neg he] at h
      cases hr : hmGetMutPush rest k id with
      | none => rw [hr] at h; cases h
      | some r' =>
        rw [hr] at h
        have hm' : e :: r' = m' := Option.some.inj h
        obtain ⟨a, v, b, h1, h2⟩ := ih k id r' hr
        exact ⟨e :: a, v, b, by simp [h1], by simp [← hm', h2]⟩

theorem hmGetMutPush_isSome :
    ∀ (m : HM) (k id : ℕ), k ∈ m.map Prod.fst → ∃ m', hmGetMutPush m k id = some m' := by
  intro m
  induction m with
  | nil => intro k id h; simp at h
  | cons e rest ih =>
    intro k id h
    rw [hmGetMutPush]
    by_cases he : e.1 = k
    · exact ⟨_, by rw [if_pos he]⟩
    · rw [List.map_cons, List.mem_cons] at h
      rcases h with h | h
      · exact absurd h.symm he
      · obtain ⟨r', hr⟩ := ih k id h
        exact ⟨e :: r', by rw [if_neg he, hr]; rfl⟩

theorem joinC_nil : joinC [] = [] := rfl

theorem joinC_append (a b : HM) : joinC (a ++ b) = joinC a ++ joinC b := by
  simp [joinC]

theorem joinC_cons (e : ℕ × List ℕ) (b : HM) : joinC (e :: b) = e.2 ++ joinC b := by
  simp [joinC]

/-- Everything one extraction step guarantees, given the key invariant: it
succeeds, preserves the key invariant, never empties the cluster map, appends
at most `id` to the outlier list, and adds exactly one occurrence of `id`
across clusters and outliers. -/
theorem extract_step_some (reach : List F) (nbhds : List Neighborhood)
    (ms : ℕ) (eps : ℚ) (acc : HM × List ℕ) (id : ℕ) (hk : KeysInv acc.1) :
    ∃ acc', extract_step reach nbhds ms eps acc id = some acc'
      ∧ KeysInv acc'.1
      ∧ (acc.1 ≠ [] → acc'.1 ≠ [])
      ∧ (acc'.2 = acc.2 ∨ acc'.2 = acc.2 ++ [id])
      ∧ (joinC acc'.1 ++ acc'.2).Perm (id :: (joinC acc.1 ++ acc.2)) := by
  rw [extract_step]
  by_cases hdef : (rGet reach id).is_normal && (rGet reach id).le (F.ofQ eps)
  · rw [if_pos hdef]
    by_cases hemp : acc.1.isEmpty
    · rw [if_pos hemp]
      have hnil : acc.1 = [] := List.isEmpty_iff.mp hemp
      refine ⟨(acc.1, acc.2 ++ [id]), rfl, hk, fun h => absurd hnil h, Or.inr rfl, ?_⟩
      rw [← Multiset.coe_eq_coe]
      simp only [← Multiset.coe_add, ← Multiset.cons_coe, ← Multiset.singleton_add]
      abel
    · rw [if_neg hemp]
      have hnil : acc.1 ≠ [] := fun h => hemp (by simp [h])
      have hlen : 0 < acc.1.length := List.length_pos.mpr hnil
      set k := acc.1.length - 1 with hkdef
      have hmem : k ∈ acc.1.map Prod.fst := by
        rw [hk, List.mem_range]
        omega
      obtain ⟨m', hm'⟩ := hmGetMutPush_isSome acc.1 k id hmem
      obtain ⟨a, v, b, hdec, hres⟩ := hmGetMutPush_some_spec _ _ _ _ hm'
      rw [hm']
      refine ⟨(m', acc.2), rfl, ?_, ?_, Or.inl rfl, ?_⟩
      · show KeysInv m'
        have h1 : List.map Prod.fst m' = List.map Prod.fst acc.1 := by
          rw [hres, hdec]; simp
        have h2 : m'.length = acc.1.length := by
          have hc := congrArg List.length hdec
          rw [hres]
          simp only [List.length_append, List.length_cons] at hc ⊢
          omega
        rw [KeysInv, h1, h2]
        exact hk
      · intro _
        rw [hres]
        simp
      · rw [hres, hdec, joinC_append, joinC_append, joinC_cons, joinC_cons]
        rw [← Multiset.coe_eq_coe]
        simp only [← Multiset.coe_add, ← Multiset.cons_coe, ← Multiset.singleton_add]
        abel
  · rw [if_neg hdef]
    by_cases hcore : ms ≤ (nhGet nbhds id).neighbors.length
        ∧ (nhGet nbhds id).core_distance ≤ eps
    · rw [if_pos hcore]
      have hnew : hmHasKey acc.1 acc.1.length = false := by
        cases hh : hmHasKey acc.1 acc.1.length
        · rfl
        · exfalso
          have := hmHasKey_iff.mp hh
          rw [hk, List.mem_range] at this
          omega
      rw [hmEntryOrInsert, hnew]
      simp only [Bool.false_eq_true, if_false]
      refine ⟨(acc.1 ++ [(acc.1.length, [id])], acc.2), rfl, ?_, ?_, Or.inl rfl, ?_⟩
      · rw [KeysInv]
        simp only [List.map_append, List.length_append, List.map_cons, List.map_nil]
        rw [hk]
        simp [List.range_succ]
      · intro _
        simp
      · rw [joinC_append, joinC_cons]
        rw [← Multiset.coe_eq_coe]
        simp only [← Multiset.coe_add, ← Multiset.cons_coe, ← Multiset.singleton_add]
        abel
    · rw [if_neg hcore]
      refine ⟨(acc.1, acc.2 ++ [id]), rfl, hk, fun h => h, Or.inr rfl, ?_⟩
      rw [← Multiset.coe_eq_coe]
      simp only [← Multiset.coe_add, ← Multiset.cons_coe, ← Multiset.singleton_add]
      abel

theorem definedAt_guard {reach : List F} {id : ℕ} {eps : ℚ} :
    ((rGet reach id).is_normal && (rGet reach id).le (F.ofQ eps)) = true
      ↔ DefinedAt reach id eps := by
  rw [Bool.and_eq_true, DefinedAt]

/-- Branch behaviour of `extract_step`: defined reachability with an empty
cluster map classifies the point as an outlier. -/
theorem extract_step_defined_empty {reach : List F} {nbhds : List Neighborhood}
    {ms : ℕ} {eps : ℚ} {acc : HM × List ℕ} {id : ℕ}
    (hdef : DefinedAt reach id eps) (he : acc.1 = []) :
    extract_step reach nbhds ms eps acc id = some (acc.1, acc.2 ++ [id]) := by
  rw [extract_step, if_pos (definedAt_guard.mpr hdef), if_pos (by simp [he])]

/-- Under the key invariant, the entry with the largest key is the last entry
of the cluster map, and `hmGetMutPush` at key `len - 1` appends to it. -/
theorem hmGetMutPush_last {m : HM} (hk : KeysInv m) (hne : m ≠ []) (id : ℕ) :
    ∃ a v, m = a ++ [(m.length - 1, v)]
      ∧ hmGetMutPush m (m.length - 1) id = some (a ++ [(m.length - 1, v ++ [id])]) := by
  have hlen : 0 < m.length := List.length_pos.mpr hne
  have hmem : m.length - 1 ∈ m.map Prod.fst := by
    rw [hk, List.mem_range]
    omega
  obtain ⟨m', hm'⟩ := hmGetMutPush_isSome m (m.length - 1) id hmem
  obtain ⟨a, v, b, hdec, hres⟩ := hmGetMutPush_some_spec _ _ _ _ hm'
  have hb : b = [] := by
    have hkeys : List.range m.length
        = List.map Prod.fst a ++ (m.length - 1) :: List.map Prod.fst b := by
      rw [← hk]
      conv_lhs => rw [hdec]
      simp
    have hidx : (List.range m.length)[a.length]? = some (m.length - 1) := by
      rw [hkeys, List.getElem?_append_right (by simp)]
      simp
    have halen : a.length < m.length := by
      by_contra hge
      push_neg at hge
      rw [List.getElem?_eq_none (by simpa using hge)] at hidx
      cases hidx
    rw [List.getElem?_range halen] at hidx
    have ha : a.length = m.length - 1 := Option.some.inj hidx
    have hc := congrArg List.length hdec
    simp only [List.length_append, List.length_cons] at hc
    have : b.length = 0 := by omega
    exact List.eq_nil_of_length_eq_zero this
  subst hb
  exact ⟨a, v, by simpa using hdec, by rw [hm', hres]⟩

/-- Branch behaviour of `extract_step`: defined reachability with a non-empty
cluster map appends the point to the last (highest-key) cluster. -/
theorem extract_step_defined_nonempty {reach : List F} {nbhds : List Neighborhood}
    {ms : ℕ} {eps : ℚ} {acc : HM × List ℕ} {id : ℕ}
    (hdef : DefinedAt reach id eps) (hne : acc.1 ≠ []) (hk : KeysInv acc.1) :
    ∃ a v, acc.1 = a ++ [(acc.1.length - 1, v)]
      ∧ extract_step reach nbhds ms eps acc id
          = some (a ++ [(acc.1.length - 1, v ++ [id])], acc.2) := by
  obtain ⟨a, v, hdec, hpush⟩ := hmGetMutPush_last hk hne id
  refine ⟨a, v, hdec, ?_⟩
  rw [extract_step, if_pos (definedAt_guard.mpr hdef),
    if_neg (by simpa using hne), hpush]

/-- Branch behaviour of `extract_step`: reachability not defined at the
threshold and a valid core point opens a fresh singleton cluster under the
next sequence number. -/
theorem extract_step_else_core {reach : List F} {nbhds : List Neighborhood}
    {ms : ℕ} {eps : ℚ} {acc : HM × List ℕ} {id : ℕ}
    (hdef : ¬ DefinedAt reach id eps) (hcore : CoreAt nbhds ms id eps)
    (hk : KeysInv acc.1) :
    extract_step reach nbhds ms eps acc id
      = some (acc.1 ++ [(acc.1.length, [id])], acc.2) := by
  have hguard : ((rGet reach id).is_normal && (rGet reach id).le (F.ofQ eps)) ≠ true :=
    fun h => hdef (definedAt_guard.mp h)
  rw [extract_step, if_neg hguard, if_pos (by exact hcore)]
  have hnew : hmHasKey acc.1 acc.1.length = false := by
    cases hh : hmHasKey acc.1 acc.1.length
    · rfl
    · exfalso
      have := hmHasKey_iff.mp hh
      rw [hk, List.mem_range] at this
      omega
  rw [hmEntryOrInsert, hnew]
  simp

/-- Branch behaviour of `extract_step`: reachability not defined at the
threshold and not a valid core point classifies the point as an outlier. -/
theorem extract_step_else_noncore {reach : List F} {nbhds : List Neighborhood}
    {ms : ℕ} {eps : ℚ} {acc : HM × List ℕ} {id : ℕ}
    (hdef : ¬ DefinedAt reach id eps) (hncore : ¬ CoreAt nbhds ms id eps) :
    extract_step reach nbhds ms eps acc id = some (acc.1, acc.2 ++ [id]) := by
  have hguard : ((rGet reach id).is_normal && (rGet reach id).le (F.ofQ eps)) ≠ true :=
    fun h => hdef (definedAt_guard.mp h)
  rw [extract_step, if_neg hguard, if_neg (by exact hncore)]

theorem extract_go_append (reach : List F) (nbhds : List Neighborhood)
    (ms : ℕ) (eps : ℚ) (l1 l2 : List ℕ) (acc : HM × List ℕ) :
    extract_go reach nbhds ms eps (l1 ++ l2) acc
      = match extract_go reach nbhds ms eps l1 acc with
        | none => none
        | some a => extract_go reach nbhds ms eps l2 a := by
  induction l1 generalizing acc with
  | nil => rw [List.nil_append, extract_go]
  | cons id rest ih =>
    rw [List.cons_append, extract_go, extract_go]
    cases extract_step reach nbhds ms eps acc id with
    | none => rfl
    | some acc' => exact ih acc'

/-- The extraction loop run from a state satisfying the key invariant always
succeeds, preserves the key invariant, never empties the cluster map, only
appends processed indices to the outlier list, and distributes exactly one
occurrence of each processed index over clusters and outliers. -/
theorem extract_go_spec (reach : List F) (nbhds : List Neighborhood)
    (ms : ℕ) (eps : ℚ) :
    ∀ (l : List ℕ) (acc : HM × List ℕ), KeysInv acc.1 →
      ∃ res, extract_go reach nbhds ms eps l acc = some res
        ∧ KeysInv res.1
        ∧ (acc.1 ≠ [] → res.1 ≠ [])
        ∧ (∃ t, res.2 = acc.2 ++ t ∧ ∀ y ∈ t, y ∈ l)
        ∧ (joinC res.1 ++ res.2).Perm (l ++ (joinC acc.1 ++ acc.2)) := by
  intro l
  induction l with
  | nil =>
    intro acc hk
    exact ⟨acc, rfl, hk, fun h => h, ⟨[], by simp, by simp⟩, by simp⟩
  | cons id rest ih =>
    intro acc hk
    obtain ⟨acc', hstep, hk', hne', hout', hperm'⟩ :=
      extract_step_some reach nbhds ms eps acc id hk
    obtain ⟨res, hgo, hkres, hneres, ⟨t, hext, htsub⟩, hpermres⟩ := ih acc' hk'
    refine ⟨res, ?_, hkres, ?_, ?_, ?_⟩
    · rw [extract_go, hstep]
      exact hgo
    · intro hne
      exact hneres (hne' hne)
    · rcases hout' with h | h
      · exact ⟨t, by rw [hext, h], fun y hy => List.mem_cons_of_mem id (htsub y hy)⟩
      · refine ⟨id :: t, ?_, ?_⟩
        · rw [hext, h, List.append_assoc]
          rfl
        · intro y hy
          rcases List.mem_cons.mp hy with hy | hy
          · exact hy ▸ List.mem_cons_self id rest
          · exact List.mem_cons_of_mem id (htsub y hy)
    · have h1 : (joinC res.1 ++ res.2).Perm (rest ++ (joinC acc'.1 ++ acc'.2)) := hpermres
      have h2 : (rest ++ (joinC acc'.1 ++ acc'.2)).Perm
          (rest ++ (id :: (joinC acc.1 ++ acc.2))) := List.Perm.append_left rest hperm'
      have h3 : (rest ++ (id :: (joinC acc.1 ++ acc.2))).Perm
          (id :: (rest ++ (joinC acc.1 ++ acc.2))) := List.perm_middle
      exact (h1.trans h2).trans h3

/-! ## Traversal invariants -/

/-- A point can only ever be visited if it is a valid expansion seed or is
listed in some other point's neighbor set. -/
def Pcond (nbhds : List Neighborhood) (ms : ℕ) (t : ℕ) : Prop :=
  ms ≤ (nhGet nbhds t).neighbors.length
    ∨ ∃ c, c ≠ t ∧ t ∈ (nhGet nbhds c).neighbors

/-- The point `c` witnesses the defined reachability of `t`: it is a core
point whose core distance bounds the stored reachability value of `t` from
below (every candidate offered by `c` is at least its core distance). -/
def RWit (nbhds : List Neighborhood) (ms : ℕ) (reach : List F) (c t : ℕ) : Prop :=
  ms ≤ (nhGet nbhds c).neighbors.length
    ∧ (nhGet nbhds c).core_distance ≤ (rGet reach t).val

/-- The traversal invariant: the order has no duplicates, ordered points are
visited, visited points satisfy `Pcond`, and every point with a normal
reachability has a witnessing core point that precedes it in the order (or is
simply somewhere in the order while the point itself is still unordered). -/
def TInv (nbhds : List Neighborhood) (ms : ℕ) (st : TState) : Prop :=
  st.ordered.Nodup
  ∧ (∀ i, i ∈ st.ordered → vGet st.visited i = true)
  ∧ (∀ i (h : i < st.visited.length), st.visited[i] = true → Pcond nbhds ms i)
  ∧ (∀ t, (rGet st.reachability t).is_normal = true →
      (t ∉ st.ordered → ∃ c ∈ st.ordered, RWit nbhds ms st.reachability c t)
      ∧ (∀ l1 l2, st.ordered = l1 ++ t :: l2 →
          ∃ c ∈ l1, RWit nbhds ms st.reachability c t))

/-- Decomposing a list extended by one element at an occurrence of `t`:
either `t` is that last element and the decomposition splits exactly there,
or the occurrence is inside the original list. -/
theorem concat_decomp {l l1 l2 : List ℕ} {s t : ℕ} (h : l ++ [s] = l1 ++ t :: l2) :
    (t = s ∧ l1 = l ∧ l2 = []) ∨ ∃ l2', l2 = l2' ++ [s] ∧ l = l1 ++ t :: l2' := by
  rcases List.eq_nil_or_concat l2 with h2 | ⟨L, b, h2⟩
  · subst h2
    have := List.append_inj' h (by simp)
    obtain ⟨h3, h4⟩ := this
    have hst : s = t := by simpa using h4
    exact Or.inl ⟨hst.symm, h3.symm, rfl⟩
  · subst h2
    rw [List.concat_eq_append, ← List.cons_append, ← List.append_assoc] at h
    obtain ⟨h3, h4⟩ := List.append_inj' h (by simp)
    have hbs : s = b := by simpa using h4
    refine Or.inr ⟨L, ?_, h3⟩
    rw [hbs]
    exact List.concat_eq_append L b

/-- Marking an unvisited point satisfying `Pcond` as visited and appending it
to the order preserves the traversal invariant. -/
theorem TInv_mark {nbhds : List Neighborhood} {ms : ℕ} {st : TState} {s : ℕ}
    (h : TInv nbhds ms st) (hs : vGet st.visited s = false)
    (hp : Pcond nbhds ms s) :
    TInv nbhds ms ⟨st.ordered ++ [s], st.reachability, st.visited.set s true⟩ := by
  obtain ⟨h1, h2, h3, h4⟩ := h
  have hsnot : s ∉ st.ordered := by
    intro hmem
    rw [h2 s hmem] at hs
    cases hs
  refine ⟨?_, ?_, ?_, ?_⟩
  · rw [List.nodup_append]
    exact ⟨h1, List.nodup_singleton s, fun x hx hxs => hsnot (by
      have : x = s := by simpa using hxs
      exact this ▸ hx)⟩
  · intro i hi
    rw [vGet_set_true_of_false hs]
    rcases List.mem_append.mp hi with hi | hi
    · by_cases his : i = s
      · rw [if_pos his]
      · rw [if_neg his]
        exact h2 i hi
    · have : i = s := by simpa using hi
      rw [if_pos this]
  · intro i hilen hival
    have hilen' : i < st.visited.length := by simpa using hilen
    by_cases his : i = s
    · exact his ▸ hp
    · rw [List.getElem_set_ne (fun he => his he.symm) hilen] at hival
      exact h3 i hilen' hival
  · intro t ht
    have hold := h4 t ht
    constructor
    · intro htnot
      have : t ∉ st.ordered := fun hmem => htnot (List.mem_append.mpr (Or.inl hmem))
      obtain ⟨c, hc, hw⟩ := hold.1 this
      exact ⟨c, List.mem_append.mpr (Or.inl hc), hw⟩
    · intro l1 l2 hdec
      rcases concat_decomp hdec with ⟨hts, hl1, _⟩ | ⟨l2', _, hdec'⟩
      · subst hts
        subst hl1
        obtain ⟨c, hc, hw⟩ := hold.1 hsnot
        exact ⟨c, hc, hw⟩
      · exact hold.2 l1 l2' hdec'

/-- Running `update` from a core point already in the order preserves the
traversal invariant: every newly assigned reachability is witnessed by the
core point itself. -/
theorem TInv_update {nbhds : List Neighborhood} {ms : ℕ} (dist : ℕ → ℕ → ℚ)
    {st : TState} (h : TInv nbhds ms st) {id : ℕ} (hid : id ∈ st.ordered)
    (hcore : ms ≤ (nhGet nbhds id).neighbors.length) (seeds : List ℕ) :
    TInv nbhds ms ⟨st.ordered,
      (update dist id (nhGet nbhds id) st.visited seeds st.reachability).2,
      st.visited⟩ := by
  obtain ⟨h1, h2, h3, h4⟩ := h
  obtain ⟨u1, u2, u3, u4⟩ :=
    update_spec dist id (nhGet nbhds id) st.visited seeds st.reachability
  refine ⟨h1, h2, h3, ?_⟩
  intro t ht
  rcases u3 t with hsame | ⟨hunv, _, hval⟩
  · -- the entry of t is untouched: reuse the old witness
    rw [hsame] at ht
    have hold := h4 t ht
    constructor
    · intro htnot
      obtain ⟨c, hc, hw⟩ := hold.1 htnot
      exact ⟨c, hc, ⟨hw.1, by rw [hsame]; exact hw.2⟩⟩
    · intro l1 l2 hdec
      obtain ⟨c, hc, hw⟩ := hold.2 l1 l2 hdec
      exact ⟨c, hc, ⟨hw.1, by rw [hsame]; exact hw.2⟩⟩
  · -- t was just assigned the candidate of `id`: `id` is the witness
    have htnot : t ∉ st.ordered := by
      intro hmem
      rw [h2 t hmem] at hunv
      cases hunv
    constructor
    · intro _
      refine ⟨id, hid, hcore, ?_⟩
      rw [hval]
      exact core_le_reachability_distance dist t id (nhGet nbhds id)
    · intro l1 l2 hdec
      exact absurd (hdec ▸ List.mem_append.mpr (Or.inr (List.mem_cons_self t l2))) htnot

/-- The seed-draining loop preserves the traversal invariant and array
lengths, provided every queued seed satisfies `Pcond`. -/
theorem drainSeeds_inv (nbhds : List Neighborhood) (ms : ℕ) (dist : ℕ → ℕ → ℚ) :
    ∀ (seeds : List ℕ) (st : TState), TInv nbhds ms st →
      (∀ s ∈ seeds, Pcond nbhds ms s) →
      TInv nbhds ms (drainSeeds nbhds ms dist seeds st)
      ∧ (drainSeeds nbhds ms dist seeds st).visited.length = st.visited.length
      ∧ (drainSeeds nbhds ms dist seeds st).reachability.length
          = st.reachability.length := by
  intro seeds st
  induction seeds, st using drainSeeds.induct nbhds ms dist with
  | case1 st =>
    intro h _
    rw [drainSeeds]
    exact ⟨h, rfl, rfl⟩
  | case2 s rest st hv ih =>
    intro h hp
    rw [drainSeeds, dif_pos hv]
    exact ih h (fun x hx => hp x (List.mem_cons_of_mem s hx))
  | case3 s rest st hv visited' ordered' hlt ih =>
    intro h hp
    rw [drainSeeds, dif_neg hv, if_pos hlt]
    have hv' : vGet st.visited s = false := by
      cases hvv : vGet st.visited s
      · rfl
      · exact absurd hvv hv
    have hmark := TInv_mark h hv' (hp s (List.mem_cons_self s rest))
    obtain ⟨hi, hl1, hl2⟩ := ih hmark (fun x hx => hp x (List.mem_cons_of_mem s hx))
    refine ⟨hi, ?_, hl2⟩
    rw [hl1]
    simp [visited']
  | case4 s rest st hv visited' ordered' hge ur ih =>
    intro h hp
    rw [drainSeeds, dif_neg hv, if_neg hge]
    have hv' : vGet st.visited s = false := by
      cases hvv : vGet st.visited s
      · rfl
      · exact absurd hvv hv
    have hslen : s < st.visited.length := vGet_false_lt_length hv'
    have hmark := TInv_mark h hv' (hp s (List.mem_cons_self s rest))
    have hsmem : s ∈ st.ordered ++ [s] := List.mem_append.mpr (Or.inr (List.mem_singleton.mpr rfl))
    have hcore : ms ≤ (nhGet nbhds s).neighbors.length := by omega
    have hupd := TInv_update dist hmark hsmem hcore rest
    have hvset : vGet visited' s = true := by
      show vGet (st.visited.set s true) s = true
      exact vGet_set_self hslen true
    obtain ⟨_, _, u3, u4⟩ := update_spec dist s (nhGet nbhds s) visited' rest st.reachability
    have hseeds : ∀ x ∈ ur.1, Pcond nbhds ms x := by
      intro x hx
      rcases u4 x hx with hx' | ⟨hxn, hxv⟩
      · exact hp x (List.mem_cons_of_mem s hx')
      · right
        refine ⟨s, ?_, hxn⟩
        intro hxs
        rw [← hxs] at hxv
        rw [hvset] at hxv
        simp at hxv
    obtain ⟨hi, hl1, hl2⟩ := ih hupd hseeds
    have hulen : ur.2.length = st.reachability.length :=
      (update_spec dist s (nhGet nbhds s) visited' rest st.reachability).1
    refine ⟨hi, ?_, ?_⟩
    · rw [hl1]
      simp [visited']
    · rw [hl2]
      exact hulen

/-- The candidate-stack loop preserves the traversal invariant and array
lengths, provided every stacked candidate satisfies `Pcond`. -/
theorem processLoop_inv (nbhds : List Neighborhood) (ms : ℕ) (dist : ℕ → ℕ → ℚ) :
    ∀ (l : List ℕ) (st : TState), TInv nbhds ms st →
      (∀ s ∈ l, Pcond nbhds ms s) →
      TInv nbhds ms (processLoop nbhds ms dist l st)
      ∧ (processLoop nbhds ms dist l st).visited.length = st.visited.length
      ∧ (processLoop nbhds ms dist l st).reachability.length
          = st.reachability.length := by
  intro l
  induction l with
  | nil =>
    intro st h _
    rw [processLoop]
    exact ⟨h, rfl, rfl⟩
  | cons cur rest ih =>
    intro st h hp
    rw [processLoop]
    by_cases hv : vGet st.visited cur = true
    · rw [if_pos hv]
      exact ih st h (fun x hx => hp x (List.mem_cons_of_mem cur hx))
    · rw [if_neg hv]
      have hv' : vGet st.visited cur = false := by
        cases hvv : vGet st.visited cur
        · rfl
        · exact absurd hvv hv
      have hcurlen : cur < st.visited.length := vGet_false_lt_length hv'
      have hmark := TInv_mark h hv' (hp cur (List.mem_cons_self cur rest))
      by_cases hlt : (nhGet nbhds cur).neighbors.length < ms
      · rw [if_pos hlt]
        obtain ⟨hi, hl1, hl2⟩ := ih _ hmark (fun x hx => hp x (List.mem_cons_of_mem cur hx))
        refine ⟨hi, ?_, hl2⟩
        rw [hl1]
        simp
      · rw [if_neg hlt]
        have hcore : ms ≤ (nhGet nbhds cur).neighbors.length := by omega
        have hcurmem : cur ∈ st.ordered ++ [cur] :=
          List.mem_append.mpr (Or.inr (List.mem_singleton.mpr rfl))
        have hupd := TInv_update dist hmark hcurmem hcore []
        have hvset : vGet (st.visited.set cur true) cur = true := vGet_set_self hcurlen true
        obtain ⟨hulen, _, _, u4⟩ :=
          update_spec dist cur (nhGet nbhds cur) (st.visited.set cur true) [] st.reachability
        have hseeds : ∀ x ∈ (update dist cur (nhGet nbhds cur) (st.visited.set cur true)
            [] st.reachability).1, Pcond nbhds ms x := by
          intro x hx
          rcases u4 x hx with hx' | ⟨hxn, hxv⟩
          · cases hx'
          · right
            refine ⟨cur, ?_, hxn⟩
            intro hxs
            rw [← hxs] at hxv
            rw [hvset] at hxv
            simp at hxv
        obtain ⟨hd, hdl1, hdl2⟩ := drainSeeds_inv nbhds ms dist _ _ hupd hseeds
        obtain ⟨hi, hl1, hl2⟩ := ih _ hd (fun x hx => hp x (List.mem_cons_of_mem cur hx))
        refine ⟨hi, ?_, ?_⟩
        · rw [hl1, hdl1]
          simp
        · rw [hl2, hdl2]
          exact hulen

theorem rGet_replicate_nan (n t : ℕ) : rGet (List.replicate n F.nan) t = F.nan := by
  rw [rGet]
  rcases Nat.lt_or_ge t n with h | h
  · rw [List.getD_eq_getElem?_getD,
      List.getElem?_eq_getElem (by simpa using h)]
    simp
  · exact List.getD_eq_default _ _ (by simpa using h)

/-- The state produced by the traversal part of `fit` satisfies the traversal
invariant, and its arrays have one entry per input point. -/
theorem fitState_inv (cfg : Optics) (n : ℕ) (dist : ℕ → ℕ → ℚ) :
    TInv (build_neighborhoods n dist cfg.eps) cfg.min_samples (fitState cfg n dist)
    ∧ (fitState cfg n dist).visited.length = n
    ∧ (fitState cfg n dist).reachability.length = n := by
  set nbhds := build_neighborhoods n dist cfg.eps with hnb
  have hinit : TInv nbhds cfg.min_samples
      ⟨[], List.replicate n F.nan, List.replicate n false⟩ := by
    refine ⟨List.nodup_nil, ?_, ?_, ?_⟩
    · intro i hi
      cases hi
    · intro i hlen hval
      rw [List.getElem_replicate] at hval
      cases hval
    · intro t ht
      rw [rGet_replicate_nan] at ht
      cases ht
  have main : ∀ (l : List ℕ) (st : TState), TInv nbhds cfg.min_samples st →
      TInv nbhds cfg.min_samples
        (l.foldl (outerStep nbhds cfg.min_samples dist) st)
      ∧ (l.foldl (outerStep nbhds cfg.min_samples dist) st).visited.length
          = st.visited.length
      ∧ (l.foldl (outerStep nbhds cfg.min_samples dist) st).reachability.length
          = st.reachability.length := by
    intro l
    induction l with
    | nil => intro st h; exact ⟨h, rfl, rfl⟩
    | cons idx rest ih =>
      intro st h
      simp only [List.foldl_cons]
      rw [outerStep]
      by_cases hskip : (vGet st.visited idx
          || decide ((nhGet nbhds idx).neighbors.length < cfg.min_samples)) = true
      · rw [if_pos hskip]
        exact ih st h
      · rw [if_neg hskip]
        have hskip' : (vGet st.visited idx
            || decide ((nhGet nbhds idx).neighbors.length < cfg.min_samples)) = false := by
          cases hb : (vGet st.visited idx
              || decide ((nhGet nbhds idx).neighbors.length < cfg.min_samples))
          · rfl
          · exact absurd hb hskip
        have hcore : cfg.min_samples ≤ (nhGet nbhds idx).neighbors.length := by
          obtain ⟨_, h2⟩ := Bool.or_eq_false_iff.mp hskip'
          have := of_decide_eq_false h2
          omega
        have hp : ∀ s ∈ [idx], Pcond nbhds cfg.min_samples s := by
          intro s hs
          have : s = idx := by simpa using hs
          subst this
          exact Or.inl hcore
        rw [process]
        obtain ⟨hi, hl1, hl2⟩ := processLoop_inv nbhds cfg.min_samples dist [idx] st h hp
        obtain ⟨hi', hl1', hl2'⟩ := ih _ hi
        exact ⟨hi', by rw [hl1', hl1], by rw [hl2', hl2]⟩
  obtain ⟨hi, hl1, hl2⟩ :=
    main (List.range n) ⟨[], List.replicate n F.nan, List.replicate n false⟩ hinit
  rw [fitState]
  refine ⟨hi, ?_, ?_⟩
  · rw [hl1]
    simp
  · rw [hl2]
    simp

/-! ## Monotonicity of the extraction pass -/

theorem F.val_le_of_le_ofQ {f : F} {e : ℚ} (hn : f.is_normal = true)
    (hle : f.le (F.ofQ e) = true) : f.val ≤ e := by
  cases f with
  | nan => cases hn
  | inf b => cases hn
  | num q s =>
    rw [F.ofQ, F.le] at hle
    rw [F.val]
    exact of_decide_eq_true hle

theorem F.le_ofQ_of_val_le {f : F} {e : ℚ} (hn : f.is_normal = true)
    (hle : f.val ≤ e) : f.le (F.ofQ e) = true := by
  cases f with
  | nan => cases hn
  | inf b => cases hn
  | num q s =>
    rw [F.val] at hle
    rw [F.ofQ, F.le]
    exact decide_eq_true hle

theorem DefinedAt_mono {reach : List F} {id : ℕ} {e1 e2 : ℚ} (h12 : e1 ≤ e2)
    (h : DefinedAt reach id e1) : DefinedAt reach id e2 :=
  ⟨h.1, F.le_ofQ_of_val_le h.1 (le_trans (F.val_le_of_le_ofQ h.1 h.2) h12)⟩

theorem CoreAt_mono {nbhds : List Neighborhood} {ms id : ℕ} {e1 e2 : ℚ}
    (h12 : e1 ≤ e2) (h : CoreAt nbhds ms id e1) : CoreAt nbhds ms id e2 :=
  ⟨h.1, le_trans h.2 h12⟩

/-- Splitting a successful extraction run at a distinguished order entry. -/
theorem extract_go_split {reach : List F} {nbhds : List Neighborhood} {ms : ℕ}
    {eps : ℚ} {p1 p2 : List ℕ} {c : ℕ} {acc res : HM × List ℕ}
    (h : extract_go reach nbhds ms eps (p1 ++ c :: p2) acc = some res) :
    ∃ a1 a2, extract_go reach nbhds ms eps p1 acc = some a1
      ∧ extract_step reach nbhds ms eps a1 c = some a2
      ∧ extract_go reach nbhds ms eps p2 a2 = some res := by
  rw [extract_go_append] at h
  cases hg1 : extract_go reach nbhds ms eps p1 acc with
  | none => rw [hg1] at h; cases h
  | some a1 =>
    rw [hg1] at h
    simp only [extract_go] at h
    cases hs : extract_step reach nbhds ms eps a1 c with
    | none => rw [hs] at h; cases h
    | some a2 =>
      rw [hs] at h
      exact ⟨a1, a2, rfl, hs, h⟩

/-- Once the cluster map is non-empty it stays non-empty for the rest of a
successful extraction run. -/
theorem extract_go_nonempty_mono {reach : List F} {nbhds : List Neighborhood}
    {ms : ℕ} {eps : ℚ} :
    ∀ {l : List ℕ} {acc res : HM × List ℕ},
      extract_go reach nbhds ms eps l acc = some res → acc.1 ≠ [] → res.1 ≠ [] := by
  intro l
  induction l with
  | nil =>
    intro acc res h hne
    simp only [extract_go] at h
    cases h
    exact hne
  | cons id rest ih =>
    intro acc res h hne
    rw [extract_go] at h
    cases hs : extract_step reach nbhds ms eps acc id with
    | none => rw [hs] at h; cases h
    | some acc' =>
      rw [hs] at h
      refine ih h ?_
      -- one step never empties the cluster map
      rw [extract_step] at hs
      by_cases hdef : ((rGet reach id).is_normal && (rGet reach id).le (F.ofQ eps)) = true
      · rw [if_pos hdef] at hs
        by_cases hemp : acc.1.isEmpty
        · exact absurd (List.isEmpty_iff.mp hemp) hne
        · rw [if_neg hemp] at hs
          cases hp : hmGetMutPush acc.1 (acc.1.length - 1) id with
          | none => rw [hp] at hs; cases hs
          | some m' =>
            rw [hp] at hs
            obtain ⟨a, v, b, _, hres⟩ := hmGetMutPush_some_spec _ _ _ _ hp
            have : acc' = (m', acc.2) := (Option.some.inj hs).symm
            rw [this]
            rw [hres]
            simp
      · rw [if_neg hdef] at hs
        by_cases hcore : ms ≤ (nhGet nbhds id).neighbors.length
            ∧ (nhGet nbhds id).core_distance ≤ eps
        · rw [if_pos hcore] at hs
          have : acc' = (hmEntryOrInsert acc.1 acc.1.length id, acc.2) :=
            (Option.some.inj hs).symm
          rw [this, hmEntryOrInsert]
          by_cases hh : hmHasKey acc.1 acc.1.length
          · rw [if_pos hh]
            exact hne
          · rw [if_neg hh]
            simp
        · rw [if_neg hcore] at hs
          have : acc' = (acc.1, acc.2 ++ [id]) := (Option.some.inj hs).symm
          rw [this]
          exact hne

/-- The central lemma behind monotonic relaxation: under the reachability
witness invariant, when extraction reaches an order entry whose reachability
is defined at the threshold, some earlier entry has already opened a cluster,
so the cluster map is non-empty at that moment. -/
theorem cluster_open_before {reach : List F} {nbhds : List Neighborhood}
    {ms : ℕ} {e : ℚ} {ordered : List ℕ}
    (hinv : ∀ t, (rGet reach t).is_normal = true →
      ∀ l1 l2, ordered = l1 ++ t :: l2 → ∃ c ∈ l1, RWit nbhds ms reach c t) :
    ∀ (N : ℕ) (l1 : List ℕ), l1.length ≤ N → ∀ (x : ℕ) (l2 : List ℕ),
      ordered = l1 ++ x :: l2 → DefinedAt reach x e →
      ∀ res, extract_go reach nbhds ms e l1 ([], []) = some res → res.1 ≠ [] := by
  intro N
  induction N with
  | zero =>
    intro l1 hlen x l2 hdec hdef res hgo
    -- impossible: the invariant yields a strictly earlier witness
    have hnil : l1 = [] := List.eq_nil_of_length_eq_zero (by omega)
    obtain ⟨c, hc, _⟩ := hinv x hdef.1 l1 l2 hdec
    rw [hnil] at hc
    cases hc
  | succ N ih =>
    intro l1 hlen x l2 hdec hdef res hgo
    obtain ⟨c, hc, hw⟩ := hinv x hdef.1 l1 l2 hdec
    obtain ⟨p1, p2, hl1⟩ := List.append_of_mem hc
    have hxval : (rGet reach x).val ≤ e := F.val_le_of_le_ofQ hdef.1 hdef.2
    have hcore : CoreAt nbhds ms c e := ⟨hw.1, le_trans hw.2 hxval⟩
    subst hl1
    obtain ⟨a1, a2, hg1, hstep, hg2⟩ := extract_go_split hgo
    by_cases hcdef : DefinedAt reach c e
    · -- the witness itself is defined at the threshold: recurse on it
      have hdec' : ordered = p1 ++ c :: (p2 ++ x :: l2) := by
        rw [hdec]
        simp
      have hp1len : p1.length ≤ N := by
        have := congrArg List.length (rfl : p1 ++ c :: p2 = p1 ++ c :: p2)
        simp only [List.length_append, List.length_cons] at hlen ⊢
        omega
      have ha1ne : a1.1 ≠ [] := ih p1 hp1len c (p2 ++ x :: l2) hdec' hcdef a1 hg1
      -- the step at c and the rest of the prefix keep the map non-empty
      have ha2ne : a2.1 ≠ [] := by
        obtain ⟨res', hres', _, hne', _, _⟩ :=
          extract_go_spec reach nbhds ms e (p1 ++ c :: p2) ([], []) (by rw [KeysInv]; rfl)
        -- reuse the one-step non-emptiness argument via `extract_go_nonempty_mono`
        have : extract_go reach nbhds ms e [c] a1 = some a2 := by
          simp only [extract_go, hstep]
        exact extract_go_nonempty_mono this ha1ne
      exact extract_go_nonempty_mono hg2 ha2ne
    · -- the witness opens a cluster at its own step
      have hk1 : KeysInv a1.1 := by
        obtain ⟨res', hres', hk', _, _, _⟩ :=
          extract_go_spec reach nbhds ms e p1 ([], []) (by rw [KeysInv]; rfl)
        rw [hg1] at hres'
        have : res' = a1 := (Option.some.inj hres').symm
        exact this ▸ hk'
      have hstep' := extract_step_else_core hcdef hcore hk1
      rw [hstep'] at hstep
      have ha2 : a2 = (a1.1 ++ [(a1.1.length, [c])], a1.2) := (Option.some.inj hstep).symm
      have ha2ne : a2.1 ≠ [] := by
        rw [ha2]
        simp
      exact extract_go_nonempty_mono hg2 ha2ne

/-- Unfolding `extract_clusters_and_outliers` on a fitted model. -/
theorem extract_fitModel (cfg : Optics) (n : ℕ) (dist : ℕ → ℕ → ℚ) (eps : ℚ) :
    extract_clusters_and_outliers cfg (fitModel cfg n dist) eps
      = extract_go (fitState cfg n dist).reachability
          (build_neighborhoods n dist cfg.eps) cfg.min_samples eps
          (fitState cfg n dist).ordered ([], []) := rfl

/-- A sort by a rational key, via a binary relation, is sorted. -/
theorem sorted_insertionSort_key (key : ℕ → ℚ) (l : List ℕ) :
    List.Sorted (fun a b => key a ≤ key b)
      (List.insertionSort (fun a b => key a ≤ key b) l) := by
  haveI : IsTotal ℕ (fun a b => key a ≤ key b) := ⟨fun a b => le_total _ _⟩
  haveI : IsTrans ℕ (fun a b => key a ≤ key b) := ⟨fun a b c h1 h2 => le_trans h1 h2⟩
  exact List.sorted_insertionSort _ l

/-! ## The claims -/

/-- C9: `fit` applied to an empty point set returns an empty cluster map and
an empty outlier list immediately; no neighborhood construction, traversal or
extraction artifacts are produced (the model fields stay empty), and no error
is raised (the result is always `some`). -/
theorem C9_fit_empty_input (cfg : Optics) (dist : ℕ → ℕ → ℚ) :
    fit cfg 0 dist = some ([], []) ∧ fitModel cfg 0 dist = ⟨[], [], []⟩ :=
  ⟨rfl, rfl⟩

/-- C1 (code evaluation): at the concrete `update` call with one unvisited
neighbor, core distance 0 and metric distance 2 (so candidate 2), a stored
reachability of 3 is kept (the code overwrites only when the stored value is
less than the candidate) although the claim demands it be overwritten by the
smaller candidate; and a stored reachability of 1 is overwritten by the
larger candidate 2 although the claim forbids it. -/
theorem C1_update_keeps_larger :
    (update (fun _ _ => (2 : ℚ)) 0 ⟨[1], 0⟩ [true, false] []
        [F.nan, F.num 3 false]).2 = [F.nan, F.num 3 false]
    ∧ (update (fun _ _ => (2 : ℚ)) 0 ⟨[1], 0⟩ [true, false] []
        [F.nan, F.num 1 false]).2 = [F.nan, F.num 2 false] := by
  constructor <;> rfl

/-- C2: a reachability value is treated as defined exactly when it is finite,
non-zero, non-subnormal and non-NaN (`is_normal`); in particular an
exact-zero reachability takes the undefined branch in the traversal's update
step (it is assigned afresh and queued as a seed) and the undefined branch in
the extraction pass (it opens a cluster or becomes an outlier, never joining
one). -/
theorem C2_zero_treated_undefined :
    (∀ f : F, f.is_normal = true ↔
      (f.isFinite = true ∧ f.isZero = false ∧ f.isSubnormal = false ∧ f.isNan = false))
    ∧ (∀ (dist : ℕ → ℕ → ℚ) (id : ℕ) (cd : ℚ) (visited : List Bool)
        (seeds : List ℕ) (reach : List F) (o : ℕ),
        vGet visited o = false → rGet reach o = F.num 0 false →
        (update dist id ⟨[o], cd⟩ visited seeds reach).2
            = reach.set o (F.ofQ (reachability_distance dist o id ⟨[o], cd⟩))
          ∧ o ∈ (update dist id ⟨[o], cd⟩ visited seeds reach).1)
    ∧ (∀ (reach : List F) (nbhds : List Neighborhood) (ms : ℕ) (eps : ℚ)
        (acc : HM × List ℕ) (id : ℕ), rGet reach id = F.num 0 false →
        extract_step reach nbhds ms eps acc id
          = if ms ≤ (nhGet nbhds id).neighbors.length
                ∧ (nhGet nbhds id).core_distance ≤ eps
            then some (hmEntryOrInsert acc.1 acc.1.length id, acc.2)
            else some (acc.1, acc.2 ++ [id])) := by
  refine ⟨?_, ?_, ?_⟩
  · intro f
    cases f with
    | nan => simp [F.is_normal, F.isFinite, F.isZero, F.isSubnormal, F.isNan]
    | inf b => simp [F.is_normal, F.isFinite, F.isZero, F.isSubnormal, F.isNan]
    | num q s =>
      cases s <;> by_cases hq : q = 0 <;>
        simp [F.is_normal, F.isFinite, F.isZero, F.isSubnormal, F.isNan, hq]
  · intro dist id cd visited seeds reach o hv hr
    have hnn : (rGet reach o).is_normal = false := by
      rw [hr, F.is_normal]
      simp
    constructor
    · rw [update]
      simp only [List.foldl_cons, List.foldl_nil, updateStep, hv, Bool.false_eq_true,
        if_false, hnn, Bool.not_false, if_pos]
    · rw [update]
      simp only [List.foldl_cons, List.foldl_nil, updateStep, hv, Bool.false_eq_true,
        if_false, hnn, Bool.not_false, if_pos]
      exact (List.perm_insertionSort _ _).mem_iff.mpr (List.mem_cons_self o seeds)
  · intro reach nbhds ms eps acc id hr
    have hnn : (rGet reach id).is_normal = false := by
      rw [hr, F.is_normal]
      simp
    rw [extract_step, hnn]
    simp

/-- C8: after every `update` the seed buffer (a vector popped from its tail,
the list head here) is sorted by reachability value descending in vector
order, so the next pop — the list head — carries a minimal reachability value
among all queued seeds. -/
theorem C8_seed_buffer_sorted (dist : ℕ → ℕ → ℚ) (id : ℕ) (nb : Neighborhood)
    (visited : List Bool) (seeds : List ℕ) (reach : List F) :
    List.Sorted (fun a b : ℕ =>
        (rGet (update dist id nb visited seeds reach).2 b).val
          ≤ (rGet (update dist id nb visited seeds reach).2 a).val)
      (update dist id nb visited seeds reach).1.reverse
    ∧ ∀ x, (update dist id nb visited seeds reach).1.head? = some x →
        ∀ s ∈ (update dist id nb visited seeds reach).1,
          (rGet (update dist id nb visited seeds reach).2 x).val
            ≤ (rGet (update dist id nb visited seeds reach).2 s).val := by
  have hsorted : List.Sorted (fun a b : ℕ =>
      (rGet (update dist id nb visited seeds reach).2 a).val
        ≤ (rGet (update dist id nb visited seeds reach).2 b).val)
      (update dist id nb visited seeds reach).1 :=
    sorted_insertionSort_key
      (fun a => (rGet (nb.neighbors.foldl (updateStep dist id nb visited)
        (seeds, reach)).2 a).val) _
  constructor
  · exact List.pairwise_reverse.mpr hsorted
  · intro x hx s hs
    cases hu : (update dist id nb visited seeds reach).1 with
    | nil =>
      rw [hu] at hx
      cases hx
    | cons a t =>
      rw [hu] at hx hs
      have hax : a = x := by
        simpa using hx
      subst hax
      rw [hu] at hsorted
      rcases List.mem_cons.mp hs with hs | hs
      · rw [hs]
      · exact List.rel_of_sorted_cons hsorted s hs

/-- C10: at every point of every extraction run the cluster-map keys are
exactly `0, …, k-1` for `k` clusters so far, so whenever the map is non-empty
the key `k-1` is present (the `get_mut` lookup succeeds) and the whole pass
returns a result rather than reaching the `unreachable!` arm. -/
theorem C10_keys_are_sequence_numbers (cfg : Optics) (m : Model) (eps : ℚ)
    (l1 l2 : List ℕ) (h : m.ordered = l1 ++ l2) :
    (∃ acc, extract_go m.reachability m.neighborhoods cfg.min_samples eps l1 ([], [])
        = some acc
      ∧ acc.1.map Prod.fst = List.range acc.1.length
      ∧ (acc.1 ≠ [] → acc.1.length - 1 ∈ acc.1.map Prod.fst))
    ∧ ∃ res, extract_clusters_and_outliers cfg m eps = some res := by
  constructor
  · obtain ⟨acc, hacc, hk, _, _, _⟩ :=
      extract_go_spec m.reachability m.neighborhoods cfg.min_samples eps l1 ([], [])
        (by rw [KeysInv]; rfl)
    refine ⟨acc, hacc, hk, ?_⟩
    intro hne
    rw [hk, List.mem_range]
    have := List.length_pos.mpr hne
    omega
  · obtain ⟨res, hres, _, _, _, _⟩ :=
      extract_go_spec m.reachability m.neighborhoods cfg.min_samples eps m.ordered
        ([], []) (by rw [KeysInv]; rfl)
    exact ⟨res, hres⟩

/-- C5: the four-way behaviour of one extraction step, for any state whose
cluster-map keys are the sequence numbers: a defined-at-threshold point is an
outlier when no cluster is open and otherwise joins the open cluster of
highest id (the last entry, key `len-1`); any other point opens a fresh
singleton cluster under the next sequential id when it is a valid core point
at the threshold, and is an outlier otherwise. -/
theorem C5_extraction_step_behavior (reach : List F) (nbhds : List Neighborhood)
    (ms : ℕ) (eps : ℚ) (acc : HM × List ℕ) (id : ℕ)
    (hk : acc.1.map Prod.fst = List.range acc.1.length) :
    (DefinedAt reach id eps → acc.1 = [] →
      extract_step reach nbhds ms eps acc id = some (acc.1, acc.2 ++ [id]))
    ∧ (DefinedAt reach id eps → acc.1 ≠ [] →
      ∃ a v, acc.1 = a ++ [(acc.1.length - 1, v)]
        ∧ extract_step reach nbhds ms eps acc id
            = some (a ++ [(acc.1.length - 1, v ++ [id])], acc.2))
    ∧ (¬ DefinedAt reach id eps → CoreAt nbhds ms id eps →
      extract_step reach nbhds ms eps acc id
        = some (acc.1 ++ [(acc.1.length, [id])], acc.2))
    ∧ (¬ DefinedAt reach id eps → ¬ CoreAt nbhds ms id eps →
      extract_step reach nbhds ms eps acc id = some (acc.1, acc.2 ++ [id])) :=
  ⟨fun h1 h2 => extract_step_defined_empty h1 h2,
   fun h1 h2 => extract_step_defined_nonempty h1 h2 hk,
   fun h1 h2 => extract_step_else_core h1 h2 hk,
   fun h1 h2 => extract_step_else_noncore h1 h2⟩

/-- C3: extraction on a fitted model, at any threshold, partitions the order
sequence: the concatenation of all cluster member lists and the outlier list
is a permutation of the order, and the order has no duplicates, so every
order entry lands in exactly one place. -/
theorem C3_extraction_partitions_order (cfg : Optics) (n : ℕ)
    (dist : ℕ → ℕ → ℚ) (eps : ℚ) :
    ∃ cl out,
      extract_clusters_and_outliers cfg (fitModel cfg n dist) eps = some (cl, out)
      ∧ (joinC cl ++ out).Perm (fitModel cfg n dist).ordered
      ∧ (fitModel cfg n dist).ordered.Nodup := by
  obtain ⟨hinv, _, _⟩ := fitState_inv cfg n dist
  obtain ⟨res, hres, _, _, _, hperm⟩ :=
    extract_go_spec (fitState cfg n dist).reachability
      (build_neighborhoods n dist cfg.eps) cfg.min_samples eps
      (fitState cfg n dist).ordered ([], []) (by rw [KeysInv]; rfl)
  refine ⟨res.1, res.2, ?_, ?_, hinv.1⟩
  · rw [extract_fitModel, hres]
  · have : (fitModel cfg n dist).ordered = (fitState cfg n dist).ordered := rfl
    rw [this]
    simpa [joinC_nil] using hperm

/-- Membership in the joined cluster lists. -/
theorem mem_joinC {m : HM} {y : ℕ} (h : ∃ kv ∈ m, y ∈ kv.2) : y ∈ joinC m := by
  obtain ⟨kv, hkv, hy⟩ := h
  rw [joinC]
  rw [List.mem_join]
  exact ⟨kv.2, List.mem_map.mpr ⟨kv, hkv, rfl⟩, hy⟩

/-- C7: a point with fewer than `min_samples` neighbors that no other point
lists as a neighbor is skipped by the traversal's outer loop: it is never
marked visited, never enters the order sequence, and appears in neither the
clusters nor the outliers returned by `fit`. -/
theorem C7_isolated_sparse_point_skipped (cfg : Optics) (n : ℕ)
    (dist : ℕ → ℕ → ℚ) (t : ℕ) (htn : t < n)
    (hfew : (nhGet (fitModel cfg n dist).neighborhoods t).neighbors.length
      < cfg.min_samples)
    (hnbr : ∀ c, c ≠ t → t ∉ (nhGet (fitModel cfg n dist).neighborhoods c).neighbors) :
    vGet (fitState cfg n dist).visited t = false
    ∧ t ∉ (fitModel cfg n dist).ordered
    ∧ ∃ cl out, fit cfg n dist = some (cl, out)
        ∧ t ∉ out ∧ ∀ kv ∈ cl, t ∉ kv.2 := by
  obtain ⟨⟨hnd, hvis, hpc, _⟩, hvlen, _⟩ := fitState_inv cfg n dist
  have hfew' : (nhGet (build_neighborhoods n dist cfg.eps) t).neighbors.length
      < cfg.min_samples := hfew
  have hnp : ¬ Pcond (build_neighborhoods n dist cfg.eps) cfg.min_samples t := by
    intro hp
    rcases hp with hp | ⟨c, hct, hcmem⟩
    · omega
    · exact hnbr c hct hcmem
  have htlen : t < (fitState cfg n dist).visited.length := by omega
  have hvfalse : (fitState cfg n dist).visited[t] = false := by
    cases hb : (fitState cfg n dist).visited[t] with
    | false => rfl
    | true => exact absurd (hpc t htlen hb) hnp
  have hv : vGet (fitState cfg n dist).visited t = false := by
    rw [vGet_eq_getElem htlen]
    exact hvfalse
  have hord : t ∉ (fitState cfg n dist).ordered := by
    intro hmem
    rw [hvis t hmem] at hv
    cases hv
  refine ⟨hv, hord, ?_⟩
  obtain ⟨res, hres, _, _, ⟨t2, hout, ht2⟩, hperm⟩ :=
    extract_go_spec (fitState cfg n dist).reachability
      (build_neighborhoods n dist cfg.eps) cfg.min_samples cfg.eps
      (fitState cfg n dist).ordered ([], []) (by rw [KeysInv]; rfl)
  have hn0 : n ≠ 0 := by omega
  refine ⟨res.1, res.2, ?_, ?_, ?_⟩
  · rw [fit, if_neg hn0, extract_fitModel, hres]
  · intro hmem
    rw [hout] at hmem
    have : t ∈ (fitState cfg n dist).ordered := ht2 t (by simpa using hmem)
    exact hord this
  · intro kv hkv hmem
    have hj : t ∈ joinC res.1 := mem_joinC ⟨kv, hkv, hmem⟩
    have : t ∈ (fitState cfg n dist).ordered := by
      have := hperm.mem_iff.mp (List.mem_append.mpr (Or.inl hj))
      simpa [joinC_nil] using this
    exact hord this

/-- C4: extraction on a fitted model is monotone in the threshold: for
`e1 ≤ e2` (both at most the build radius) every point that is an outlier at
`e2` is already an outlier at `e1`, i.e. the non-outliers at `e1` form a
subset of the non-outliers at `e2`. -/
theorem C4_monotonic_relaxation (cfg : Optics) (n : ℕ) (dist : ℕ → ℕ → ℚ)
    (e1 e2 : ℚ) (h12 : e1 ≤ e2) (h2b : e2 ≤ cfg.eps) :
    ∃ cl1 out1 cl2 out2,
      extract_clusters_and_outliers cfg (fitModel cfg n dist) e1 = some (cl1, out1)
      ∧ extract_clusters_and_outliers cfg (fitModel cfg n dist) e2 = some (cl2, out2)
      ∧ ∀ x ∈ out2, x ∈ out1 := by
  obtain ⟨⟨hnd, hvis, hpc, hr4⟩, _, _⟩ := fitState_inv cfg n dist
  obtain ⟨res1, hres1, _, _, _, _⟩ :=
    extract_go_spec (fitState cfg n dist).reachability
      (build_neighborhoods n dist cfg.eps) cfg.min_samples e1
      (fitState cfg n dist).ordered ([], []) (by rw [KeysInv]; rfl)
  obtain ⟨res2, hres2, _, _, ⟨t2all, hout2, ht2all⟩, _⟩ :=
    extract_go_spec (fitState cfg n dist).reachability
      (build_neighborhoods n dist cfg.eps) cfg.min_samples e2
      (fitState cfg n dist).ordered ([], []) (by rw [KeysInv]; rfl)
  refine ⟨res1.1, res1.2, res2.1, res2.2, ?_, ?_, ?_⟩
  · rw [extract_fitModel, hres1]
  · rw [extract_fitModel, hres2]
  · intro x hx
    have hxo : x ∈ (fitState cfg n dist).ordered := by
      rw [hout2] at hx
      exact ht2all x (by simpa using hx)
    obtain ⟨l1, l2, hdec⟩ := List.append_of_mem hxo
    have hnd' : (l1 ++ x :: l2).Nodup := hdec ▸ hnd
    have hx1 : x ∉ l1 := by
      obtain ⟨_, _, hdisj⟩ := List.nodup_append.mp hnd'
      intro hmem
      exact hdisj hmem (List.mem_cons_self x l2)
    have hx2 : x ∉ l2 := by
      obtain ⟨_, hn2, _⟩ := List.nodup_append.mp hnd'
      exact (List.nodup_cons.mp hn2).1
    have hinv : ∀ t, (rGet (fitState cfg n dist).reachability t).is_normal = true →
        ∀ p1 p2, (fitState cfg n dist).ordered = p1 ++ t :: p2 →
          ∃ c ∈ p1, RWit (build_neighborhoods n dist cfg.eps) cfg.min_samples
            (fitState cfg n dist).reachability c t :=
      fun t ht p1 p2 hd => (hr4 t ht).2 p1 p2 hd
    have hres2' : extract_go (fitState cfg n dist).reachability
        (build_neighborhoods n dist cfg.eps) cfg.min_samples e2
        (l1 ++ x :: l2) ([], []) = some res2 := hdec ▸ hres2
    obtain ⟨a1, a2, hg1, hstep, hg2⟩ := extract_go_split hres2'
    obtain ⟨a1', hg1', hka1, _, ⟨ta1, houta1, hta1⟩, _⟩ :=
      extract_go_spec (fitState cfg n dist).reachability
        (build_neighborhoods n dist cfg.eps) cfg.min_samples e2 l1 ([], [])
        (by rw [KeysInv]; rfl)
    have ha1eq : a1' = a1 := by
      rw [hg1] at hg1'
      exact (Option.some.inj hg1').symm
    rw [ha1eq] at hka1 houta1
    -- whenever the step at `x` leaves the outlier list unchanged, `x` cannot
    -- be among the outliers at `e2`, contradicting the assumption
    have hcommon : a2.2 = a1.2 → False := by
      intro ha22
      obtain ⟨acc', hstepx, hka2, _, _, _⟩ :=
        extract_step_some (fitState cfg n dist).reachability
          (build_neighborhoods n dist cfg.eps) cfg.min_samples e2 a1 x hka1
      have hacc' : acc' = a2 := by
        rw [hstepx] at hstep
        exact Option.some.inj hstep
      rw [hacc'] at hka2
      obtain ⟨r2', hgo2', _, _, ⟨t2', hout2', ht2'⟩, _⟩ :=
        extract_go_spec (fitState cfg n dist).reachability
          (build_neighborhoods n dist cfg.eps) cfg.min_samples e2 l2 a2 hka2
      have hr2 : r2' = res2 := by
        rw [hg2] at hgo2'
        exact (Option.some.inj hgo2').symm
      have hxin : x ∈ a2.2 ++ t2' := by
        rw [← hout2', hr2]
        exact hx
      rcases List.mem_append.mp hxin with hxin | hxin
      · rw [ha22, houta1] at hxin
        exact hx1 (hta1 x (by simpa using hxin))
      · exact hx2 (ht2' x hxin)
    by_cases hdef2 : DefinedAt (fitState cfg n dist).reachability x e2
    · exfalso
      have ha1ne : a1.1 ≠ [] :=
        cluster_open_before hinv l1.length l1 le_rfl x l2 hdec hdef2 a1 hg1
      obtain ⟨a, v, _, hstep'⟩ := extract_step_defined_nonempty hdef2 ha1ne hka1
      have ha2 : a2 = (a ++ [(a1.1.length - 1, v ++ [x])], a1.2) := by
        rw [hstep'] at hstep
        exact (Option.some.inj hstep).symm
      exact hcommon (by rw [ha2])
    · by_cases hcore2 : CoreAt (build_neighborhoods n dist cfg.eps)
          cfg.min_samples x e2
      · exfalso
        have hstep' := extract_step_else_core hdef2 hcore2 hka1
        have ha2 : a2 = (a1.1 ++ [(a1.1.length, [x])], a1.2) := by
          rw [hstep'] at hstep
          exact (Option.some.inj hstep).symm
        exact hcommon (by rw [ha2])
      · have hdef1 : ¬ DefinedAt (fitState cfg n dist).reachability x e1 :=
          fun h => hdef2 (DefinedAt_mono h12 h)
        have hcore1 : ¬ CoreAt (build_neighborhoods n dist cfg.eps)
            cfg.min_samples x e1 := fun h => hcore2 (CoreAt_mono h12 h)
        have hres1' : extract_go (fitState cfg n dist).reachability
            (build_neighborhoods n dist cfg.eps) cfg.min_samples e1
            (l1 ++ x :: l2) ([], []) = some res1 := hdec ▸ hres1
        obtain ⟨b1, b2, hbg1, hbstep, hbg2⟩ := extract_go_split hres1'
        have hbstep' : extract_step (fitState cfg n dist).reachability
            (build_neighborhoods n dist cfg.eps) cfg.min_samples e1 b1 x
              = some (b1.1, b1.2 ++ [x]) :=
          extract_step_else_noncore hdef1 hcore1
        have hb2 : b2 = (b1.1, b1.2 ++ [x]) := by
          rw [hbstep'] at hbstep
          exact (Option.some.inj hbstep).symm
        obtain ⟨b1', hbg1', hkb1, _, _, _⟩ :=
          extract_go_spec (fitState cfg n dist).reachability
            (build_neighborhoods n dist cfg.eps) cfg.min_samples e1 l1 ([], [])
            (by rw [KeysInv]; rfl)
        have hb1eq : b1' = b1 := by
          rw [hbg1] at hbg1'
          exact (Option.some.inj hbg1').symm
        have hkb2 : KeysInv b2.1 := by
          rw [hb2]
          exact hb1eq ▸ hkb1
        obtain ⟨r1', hgo1', _, _, ⟨t1', hout1', _⟩, _⟩ :=
          extract_go_spec (fitState cfg n dist).reachability
            (build_neighborhoods n dist cfg.eps) cfg.min_samples e1 l2 b2 hkb2
        have hr1 : r1' = res1 := by
          rw [hbg2] at hgo1'
          exact (Option.some.inj hgo1').symm
        rw [← hr1, hout1', hb2]
        show x ∈ (b1.2 ++ [x]) ++ t1'
        exact List.mem_append.mpr (Or.inl (List.mem_append.mpr
          (Or.inr (List.mem_singleton.mpr rfl))))

/-! ## Core distances from the neighborhood builder -/

theorem nhGet_build {n : ℕ} (dist : ℕ → ℕ → ℚ) (eps : ℚ) {p : ℕ} (hp : p < n) :
    nhGet (build_neighborhoods n dist eps) p
      = ⟨(List.range n).filter fun j => decide (dist p j ≤ eps),
         if 1 < ((List.range n).filter fun j => decide (dist p j ≤ eps)).length
         then (sortedDists n dist p).getD 1 0 else 0⟩ := by
  rw [nhGet, build_neighborhoods, List.getD_eq_getElem?_getD, List.getElem?_map,
    List.getElem?_range hp]
  rfl

theorem two_le_length_of_mem {α : Type} {l : List α} {a b : α}
    (ha : a ∈ l) (hb : b ∈ l) (hab : a ≠ b) : 2 ≤ l.length := by
  match l with
  | [] => cases ha
  | [x] =>
    rw [List.mem_singleton] at ha hb
    exact absurd (ha.trans hb.symm) hab
  | x :: y :: t => simp

theorem two_le_countP {α : Type} {l : List α} (a b : α) {q : α → Bool}
    (ha : a ∈ l) (hb : b ∈ l) (hab : a ≠ b) (hqa : q a = true) (hqb : q b = true) :
    2 ≤ l.countP q := by
  rw [List.countP_eq_length_filter]
  exact two_le_length_of_mem (List.mem_filter.mpr ⟨ha, hqa⟩)
    (List.mem_filter.mpr ⟨hb, hqb⟩) hab

theorem exists_pair_of_two_le_countP {l : List ℕ} (hnd : l.Nodup) {q : ℕ → Bool}
    (h : 2 ≤ l.countP q) :
    ∃ a b, a ∈ l ∧ b ∈ l ∧ a ≠ b ∧ q a = true ∧ q b = true := by
  rw [List.countP_eq_length_filter] at h
  match hf : l.filter q with
  | [] => rw [hf] at h; simp at h
  | [x] => rw [hf] at h; simp at h
  | a :: b :: t =>
    have hamem : a ∈ l.filter q := by rw [hf]; exact List.mem_cons_self a (b :: t)
    have hbmem : b ∈ l.filter q := by
      rw [hf]
      exact List.mem_cons_of_mem a (List.mem_cons_self b t)
    have hndf : (l.filter q).Nodup := hnd.filter q
    have hab : a ≠ b := by
      rw [hf] at hndf
      intro he
      exact (List.nodup_cons.mp hndf).1 (he ▸ List.mem_cons_self b t)
    obtain ⟨ha, hqa⟩ := List.mem_filter.mp hamem
    obtain ⟨hb, hqb⟩ := List.mem_filter.mp hbmem
    exact ⟨a, b, ha, hb, hab, hqa, hqb⟩

theorem countP_lt_le_one_of_sorted {s0 s1 : ℚ} {rest : List ℚ}
    (hs : List.Sorted (· ≤ ·) (s0 :: s1 :: rest)) :
    (s0 :: s1 :: rest).countP (fun r => decide (r < s1)) ≤ 1 := by
  have htail : (s1 :: rest).countP (fun r => decide (r < s1)) = 0 := by
    rw [List.countP_eq_zero]
    intro r hr
    simp only [decide_eq_true_eq]
    push_neg
    rcases List.mem_cons.mp hr with hr | hr
    · rw [hr]
    · exact List.rel_of_sorted_cons (hs.of_cons) r hr
  rw [List.countP_cons, htail]
  split <;> omega

/-- C6: the neighborhood builder computes `core_distance` independently of
`min_samples` (the builder never reads it), and whenever a point has more
than one neighbor within the build radius its core distance equals the
distance to its second-nearest neighbor — since the nearest is the point
itself at distance 0, this is the smallest distance to any other point —
while a point with at most one neighbor gets core distance 0. -/
theorem C6_core_distance_second_nearest (n : ℕ) (dist : ℕ → ℕ → ℚ) (eps : ℚ)
    (p : ℕ) (hp : p < n) (hnn : ∀ i j, 0 ≤ dist i j) (hself : dist p p = 0) :
    (∀ ms1 ms2 : ℕ, (fitModel ⟨eps, ms1⟩ n dist).neighborhoods
        = (fitModel ⟨eps, ms2⟩ n dist).neighborhoods)
    ∧ (1 < (nhGet (build_neighborhoods n dist eps) p).neighbors.length →
        ∃ j, j < n ∧ j ≠ p
          ∧ (nhGet (build_neighborhoods n dist eps) p).core_distance = dist p j
          ∧ ∀ j', j' < n → j' ≠ p → dist p j ≤ dist p j')
    ∧ (¬ 1 < (nhGet (build_neighborhoods n dist eps) p).neighbors.length →
        (nhGet (build_neighborhoods n dist eps) p).core_distance = 0) := by
  refine ⟨fun _ _ => rfl, ?_, ?_⟩
  · intro hgt
    rw [nhGet_build dist eps hp] at hgt ⊢
    simp only at hgt ⊢
    rw [if_pos hgt]
    have hn2 : 2 ≤ n := by
      have h1 := List.length_filter_le
        (fun j => decide (dist p j ≤ eps)) (List.range n)
      rw [List.length_range] at h1
      omega
    have hLlen : ((List.range n).map (dist p)).length = n := by simp
    have hperm : (sortedDists n dist p).Perm ((List.range n).map (dist p)) :=
      List.perm_insertionSort (· ≤ ·) ((List.range n).map (dist p))
    have hSlen : (sortedDists n dist p).length = n := by
      rw [hperm.length_eq, hLlen]
    have hsorted : List.Sorted (· ≤ ·) (sortedDists n dist p) :=
      List.sorted_insertionSort (· ≤ ·) _
    match hS : sortedDists n dist p with
    | [] => rw [hS] at hSlen; simp at hSlen; omega
    | [s0] => rw [hS] at hSlen; simp at hSlen; omega
    | s0 :: s1 :: rest =>
      rw [hS] at hsorted hperm
      have hgetD : (s0 :: s1 :: rest).getD 1 0 = s1 := rfl
      rw [hgetD]
      have hs1mem : s1 ∈ (List.range n).map (dist p) :=
        hperm.mem_iff.mp (List.mem_cons_of_mem s0 (List.mem_cons_self s1 rest))
      -- minimality of s1 among distances to other points
      have hmin : ∀ j', j' < n → j' ≠ p → s1 ≤ dist p j' := by
        intro j' hj' hjp
        by_contra hlt
        push_neg at hlt
        have h0lt : (0 : ℚ) < s1 := lt_of_le_of_lt (hnn p j') hlt
        have hcount2 : 2 ≤ ((List.range n).map (dist p)).countP
            (fun r => decide (r < s1)) := by
          rw [List.countP_map]
          refine two_le_countP p j' (List.mem_range.mpr hp)
            (List.mem_range.mpr hj') (fun he => hjp he.symm) ?_ ?_
          · simp only [Function.comp]
            rw [hself]
            simpa using h0lt
          · simp only [Function.comp]
            simpa using hlt
        have hcount1 : ((List.range n).map (dist p)).countP
            (fun r => decide (r < s1)) ≤ 1 := by
          rw [← hperm.countP_eq]
          exact countP_lt_le_one_of_sorted hsorted
        omega
      by_cases hz : s1 = 0
      · -- duplicate point: two zero distances, one from a point other than p
        have hs0 : s0 = 0 := by
          have hs0mem : s0 ∈ (List.range n).map (dist p) :=
            hperm.mem_iff.mp (List.mem_cons_self s0 (s1 :: rest))
          obtain ⟨j, _, hj⟩ := List.mem_map.mp hs0mem
          have h1 : 0 ≤ s0 := hj ▸ hnn p j
          have h2 : s0 ≤ s1 := (List.sorted_cons.mp hsorted).1 s1
            (List.mem_cons_self s1 rest)
          rw [hz] at h2
          linarith
        have hcount2 : 2 ≤ (List.range n).countP (fun j => decide (dist p j = 0)) := by
          have : 2 ≤ ((List.range n).map (dist p)).countP
              (fun r => decide (r = 0)) := by
            rw [← hperm.countP_eq, List.countP_cons, List.countP_cons]
            simp [hs0, hz]
          rw [List.countP_map] at this
          simpa [Function.comp] using this
        obtain ⟨a, b, ha, hb, hab, hqa, hqb⟩ :=
          exists_pair_of_two_le_countP (List.nodup_range n) hcount2
        have hda : dist p a = 0 := of_decide_eq_true hqa
        have hdb : dist p b = 0 := of_decide_eq_true hqb
        by_cases hap : a = p
        · have hbp : b ≠ p := fun hbp => hab (hap.trans hbp.symm)
          refine ⟨b, List.mem_range.mp hb, hbp, by rw [hz, hdb], ?_⟩
          intro j' hj' hjp'
          rw [hdb, ← hz]
          exact hmin j' hj' hjp'
        · refine ⟨a, List.mem_range.mp ha, hap, by rw [hz, hda], ?_⟩
          intro j' hj' hjp'
          rw [hda, ← hz]
          exact hmin j' hj' hjp'
      · -- s1 is a genuine distance to a point other than p
        obtain ⟨j, hj, hdj⟩ := List.mem_map.mp hs1mem
        have hjp : j ≠ p := by
          intro he
          rw [he, hself] at hdj
          exact hz hdj.symm
        refine ⟨j, List.mem_range.mp hj, hjp, hdj.symm, ?_⟩
        intro j' hj' hjp'
        rw [hdj]
        exact hmin j' hj' hjp'
  · intro hle
    rw [nhGet_build dist eps hp] at hle ⊢
    simp only at hle ⊢
    rw [if_neg hle]

/-! ## Witnesses -/

/-- Witness for C2 at a concrete zero-reachability state. -/
theorem C2_witness :
    vGet [false] 0 = false ∧ rGet [F.num 0 false] 0 = F.num 0 false
    ∧ ((update (fun _ _ => (1 : ℚ)) 0 ⟨[0], 0⟩ [false] [] [F.num 0 false]).2
        = [F.num 0 false].set 0
            (F.ofQ (reachability_distance (fun _ _ => (1 : ℚ)) 0 0 ⟨[0], 0⟩))
      ∧ 0 ∈ (update (fun _ _ => (1 : ℚ)) 0 ⟨[0], 0⟩ [false] [] [F.num 0 false]).1) :=
  ⟨rfl, rfl,
    C2_zero_treated_undefined.2.1 (fun _ _ => (1 : ℚ)) 0 0 [false] [] [F.num 0 false] 0
      rfl rfl⟩

/-- Witness for C4 at a concrete configuration and threshold pair. -/
theorem C4_witness :
    (1 : ℚ) ≤ 2 ∧ (2 : ℚ) ≤ (2 : ℚ)
    ∧ ∃ cl1 out1 cl2 out2,
      extract_clusters_and_outliers ⟨2, 1⟩ (fitModel ⟨2, 1⟩ 2 (fun _ _ => (1 : ℚ))) 1
        = some (cl1, out1)
      ∧ extract_clusters_and_outliers ⟨2, 1⟩ (fitModel ⟨2, 1⟩ 2 (fun _ _ => (1 : ℚ))) 2
        = some (cl2, out2)
      ∧ ∀ x ∈ out2, x ∈ out1 :=
  ⟨by norm_num, le_refl 2,
    C4_monotonic_relaxation ⟨2, 1⟩ 2 (fun _ _ => (1 : ℚ)) 1 2 (by norm_num) (le_refl 2)⟩

/-- Witness for C5 at the empty extraction state. -/
theorem C5_witness :
    (([], []) : HM × List ℕ).1.map Prod.fst
        = List.range (([], []) : HM × List ℕ).1.length
    ∧ ((DefinedAt [] 0 0 → (([], []) : HM × List ℕ).1 = [] →
        extract_step [] [] 0 0 ([], []) 0 = some ([], [0]))
      ∧ (¬ DefinedAt [] 0 0 → CoreAt [] 0 0 0 →
        extract_step [] [] 0 0 ([], []) 0 = some ([(0, [0])], []))) := by
  have h := C5_extraction_step_behavior [] [] 0 0 ([], []) 0 rfl
  exact ⟨rfl, fun h1 h2 => h.1 h1 h2, fun h1 h2 => h.2.2.1 h1 h2⟩

/-- Witness for C6 on two points at distance 1. -/
theorem C6_witness :
    (0 : ℕ) < 2
    ∧ (fun i j : ℕ => if i = j then (0 : ℚ) else 1) 0 0 = 0
    ∧ (1 < (nhGet (build_neighborhoods 2
          (fun i j : ℕ => if i = j then (0 : ℚ) else 1) 1) 0).neighbors.length →
        ∃ j, j < 2 ∧ j ≠ 0
          ∧ (nhGet (build_neighborhoods 2
              (fun i j : ℕ => if i = j then (0 : ℚ) else 1) 1) 0).core_distance
            = (fun i j : ℕ => if i = j then (0 : ℚ) else 1) 0 j
          ∧ ∀ j', j' < 2 → j' ≠ 0 →
              (fun i j : ℕ => if i = j then (0 : ℚ) else 1) 0 j
                ≤ (fun i j : ℕ => if i = j then (0 : ℚ) else 1) 0 j') := by
  refine ⟨by norm_num, by norm_num, ?_⟩
  exact (C6_core_distance_second_nearest 2 (fun i j : ℕ => if i = j then (0 : ℚ) else 1)
    1 0 (by norm_num)
    (fun i j => by by_cases h : i = j <;> simp [h])
    (by norm_num)).2.1

/-- Witness for C7 on two isolated points. -/
theorem C7_witness :
    (0 : ℕ) < 2
    ∧ vGet (fitState ⟨1, 2⟩ 2 (fun i j : ℕ => if i = j then (0 : ℚ) else 10)).visited 0
        = false
    ∧ 0 ∉ (fitModel ⟨1, 2⟩ 2 (fun i j : ℕ => if i = j then (0 : ℚ) else 10)).ordered
    ∧ ∃ cl out, fit ⟨1, 2⟩ 2 (fun i j : ℕ => if i = j then (0 : ℚ) else 10)
        = some (cl, out) ∧ 0 ∉ out ∧ ∀ kv ∈ cl, 0 ∉ kv.2 := by
  have h := C7_isolated_sparse_point_skipped ⟨1, 2⟩ 2
    (fun i j : ℕ => if i = j then (0 : ℚ) else 10) 0 (by norm_num)
    (by decide)
    (by
      intro c hc
      match c with
      | 0 => exact absurd rfl hc
      | 1 => decide
      | Nat.succ (Nat.succ c) =>
        show 0 ∉ (nhGet (build_neighborhoods 2
          (fun i j : ℕ => if i = j then (0 : ℚ) else 10) 1) (c + 2)).neighbors
        rw [nhGet, List.getD_eq_default]
        · simp
        · rw [build_neighborhoods]
          simp)
  exact ⟨by norm_num, h.1, h.2.1, h.2.2⟩

/-- Witness for C8 at an `update` call queueing a single seed. -/
theorem C8_witness :
    List.Sorted (fun a b : ℕ =>
        (rGet (update (fun _ _ => (2 : ℚ)) 0 ⟨[1], 0⟩ [true, false] []
          [F.nan, F.nan]).2 b).val
          ≤ (rGet (update (fun _ _ => (2 : ℚ)) 0 ⟨[1], 0⟩ [true, false] []
            [F.nan, F.nan]).2 a).val)
      (update (fun _ _ => (2 : ℚ)) 0 ⟨[1], 0⟩ [true, false] [] [F.nan, F.nan]).1.reverse
    ∧ (rGet (update (fun _ _ => (2 : ℚ)) 0 ⟨[1], 0⟩ [true, false] []
        [F.nan, F.nan]).2 1).val
      ≤ (rGet (update (fun _ _ => (2 : ℚ)) 0 ⟨[1], 0⟩ [true, false] []
        [F.nan, F.nan]).2 1).val := by
  have h := C8_seed_buffer_sorted (fun _ _ => (2 : ℚ)) 0 ⟨[1], 0⟩ [true, false] []
    [F.nan, F.nan]
  exact ⟨h.1, h.2 1 rfl 1 (by decide)⟩

/-- Witness for C10 on a one-entry order. -/
theorem C10_witness :
    (∃ acc, extract_go [F.nan] [] 1 1 [] ([], []) = some acc
      ∧ acc.1.map Prod.fst = List.range acc.1.length
      ∧ (acc.1 ≠ [] → acc.1.length - 1 ∈ acc.1.map Prod.fst))
    ∧ ∃ res, extract_clusters_and_outliers ⟨1, 1⟩ ⟨[0], [F.nan], []⟩ 1 = some res :=
  C10_keys_are_sequence_numbers ⟨1, 1⟩ ⟨[0], [F.nan], []⟩ 1 [] [0] rfl

end Petal
